import Mathlib

/-!
Verification of the path-traversal core (`trimesh/path/traversal.py`).

The file shallowly embeds the functions of the source module and proves or
refutes the behavioural claims about them:

* the cycle-to-entity resolver `vertex_to_entity_path` with its inner
  `edge_direction` rule and the in-place reorientation pass over the entity
  path (entities are modelled as their mutable `points` lists, a state of
  type `ℕ → List ℕ`, updated functionally);
* the discretizer `discretize_path` (entity discretization and the CCW test
  are external collaborators, passed as parameters);
* the arc-length sampler `PathSample` (`__init__`, `sample`, `truncate`) and
  the resampler `resample_path`, embedded over exact reals, with the global
  tolerances `tol.zero` / `tol.merge` passed as parameters.

Machine floats are modelled as exact reals; numpy index arithmetic
(including Python's negative-index wraparound in `truncate`) is modelled
explicitly.
-/

open scoped Classical

namespace Traversal

/-! ## Cycle-to-entity resolution (`vertex_to_entity_path`) -/

/-- Endpoints of an entity, derived from its point sequence:
`end_points = (points[0], points[-1])`.  This realises the documented
entity invariant that reversing `points` is the same as swapping
`end_points`. -/
def end_points (l : List ℕ) : ℕ × ℕ := (l.headI, l.getLastD 0)

/-- Embedding of the inner `edge_direction(a, b)` of
`vertex_to_entity_path`: the `-1`/`1` direction pair picked by the
four-way endpoint comparison, or `none` for the
`edges aren't connected` `ValueError`. -/
def edge_direction (a b : ℕ × ℕ) : Option (Int × Int) :=
  if a.1 = b.1 then some (-1, 1)
  else if a.1 = b.2 then some (-1, -1)
  else if a.2 = b.1 then some (1, 1)
  else if a.2 = b.2 then some (1, -1)
  else none

/-- Python slice `l[::d]` for a direction `d ∈ {1, -1}`. -/
def applyDir (d : Int) (l : List ℕ) : List ℕ :=
  if d = -1 then l.reverse else l

/-- One iteration of the reorientation loop of `vertex_to_entity_path`:
`da, db = edge_direction(entities[a].end_points, entities[b].end_points)`,
then `entities[a].points = entities[a].points[::da]` and
`entities[b].points = entities[b].points[::db]` (the `b` read happens
after the `a` write, which matters when `a = b`). -/
def alignStep (ents : ℕ → List ℕ) (ab : ℕ × ℕ) : Option (ℕ → List ℕ) :=
  match edge_direction (end_points (ents ab.1)) (end_points (ents ab.2)) with
  | none => none
  | some (da, db) =>
    let e1 := Function.update ents ab.1 (applyDir da (ents ab.1))
    some (Function.update e1 ab.2 (applyDir db (e1 ab.2)))

/-- The cyclically adjacent index pairs walked by the reorientation loop:
`round_trip = np.append(entity_path, entity_path[0])` zipped with its
own tail. -/
def roundTripPairs (path : List ℕ) : List (ℕ × ℕ) :=
  (path ++ [path.headI]).zip (path ++ [path.headI]).tail

/-- The whole reorientation loop of `vertex_to_entity_path` over the
cyclic entity path, threading the entity state; `none` when
`edge_direction` raises. -/
def alignPass (ents : ℕ → List ℕ) (path : List ℕ) : Option (ℕ → List ℕ) :=
  (roundTripPairs path).foldlM alignStep ents

/-- Modelled from the spec: `unique_ordered` from the external grouping
module — deduplicate a sequence while preserving first-occurrence order
(the helper keeps the set of values already emitted). -/
def unique_ordered_aux : List ℕ → List ℕ → List ℕ
  | [], _ => []
  | x :: xs, seen =>
    if x ∈ seen then unique_ordered_aux xs seen
    else x :: unique_ordered_aux xs (x :: seen)

/-- Modelled from the spec: `unique_ordered` from the external grouping
module — deduplicate a sequence while preserving first-occurrence order. -/
def unique_ordered (l : List ℕ) : List ℕ := unique_ordered_aux l []

/-- The entity-collection loop of `vertex_to_entity_path`: for
`i in range(len(vertex_path) + 1)` look up the entity index stored on the
graph edge between vertices `vertex_path[i % n]` and
`vertex_path[(i+1) % n]`; `none` models the lookup failure on a missing
edge.  The graph is its edge-data map `ℕ → ℕ → Option ℕ`. -/
def collectEntities (graph : ℕ → ℕ → Option ℕ) (vertex_path : List ℕ) :
    Option (List ℕ) :=
  (List.range (vertex_path.length + 1)).mapM (fun i =>
    graph (vertex_path.getD (i % vertex_path.length) 0)
      (vertex_path.getD ((i + 1) % vertex_path.length) 0))

/-- Embedding of `vertex_to_entity_path(vertex_path, graph, entities,
vertices)`.  The CCW test `is_ccw` is an external collaborator passed as a
parameter, applied to the closed ring
`vertices[np.append(vertex_path, vertex_path[0])]`; when `vertices is
None` the direction defaults to forward.  Returns the entity path
together with the final entity state (the in-place `points` mutations). -/
def vertex_to_entity_path {P : Type} (graph : ℕ → ℕ → Option ℕ)
    (ents : ℕ → List ℕ) (vertex_path : List ℕ)
    (vertices : Option (ℕ → P)) (is_ccw : List P → Bool) :
    Option (List ℕ × (ℕ → List ℕ)) :=
  let ccw_direction : Int :=
    match vertices with
    | none => 1
    | some V =>
      (if is_ccw ((vertex_path ++ [vertex_path.headI]).map V) then 1 else 0) * 2 - 1
  match collectEntities graph vertex_path with
  | none => none
  | some collected =>
    let entity_path := applyDir ccw_direction (unique_ordered collected)
    match alignPass ents entity_path with
    | none => none
    | some ents2 => some (entity_path, ents2)

/-! ## Discretizer (`discretize_path`) -/

/-- The accumulation loop of `discretize_path` for a multi-entity path:
walking the path with its enumeration index, every entity except the one
at position `total - 1` contributes its discretized points with the final
point sliced off (`current[:-1]`), the last entity contributes all of its
points.  `f` is the external `entity.discrete(vertices, scale)`. -/
def walkDiscrete {P : Type} (f : ℕ → List P) (total : ℕ) :
    ℕ → List ℕ → List P
  | _, [] => []
  | i, e :: rest =>
    (if total - 1 ≤ i then f e else (f e).dropLast) ++
      walkDiscrete f total (i + 1) rest

/-- Embedding of `discretize_path(entities, vertices, path, scale)`:
`none` models the `Cannot discretize empty path!` `ValueError`; a
single-entity path discretizes that entity directly; otherwise the
enumeration loop concatenates the entities; finally, when the vertices
are 2D and the result fails the external CCW test, the result is
reversed. -/
def discretize_path {P : Type} (f : ℕ → List P) (dim : ℕ)
    (is_ccw : List P → Bool) (path : List ℕ) : Option (List P) :=
  if path.length = 0 then none
  else
    let discrete :=
      if path.length = 1 then f path.headI
      else walkDiscrete f path.length 0 path
    if dim = 2 ∧ is_ccw discrete = false then some discrete.reverse
    else some discrete

/-- Modelled from the spec: the external CCW test `is_ccw` over a closed
ring of 2D points — the signed (shoelace) area of the ring is positive. -/
def shoelace (l : List (ℤ × ℤ)) : ℤ :=
  ((l.zip l.tail).map (fun p => p.1.1 * p.2.2 - p.2.1 * p.1.2)).sum

/-- Modelled from the spec: Boolean form of the external CCW test. -/
def is_ccw_shoelace (l : List (ℤ × ℤ)) : Bool :=
  decide (0 < shoelace l)

/-! ## Arc-length sampler (`PathSample`) and resampler (`resample_path`) -/

/-- Points in `d`-dimensional space, as the code's `(n, d)` float rows. -/
abbrev Pt (d : ℕ) : Type := Fin d → ℝ

/-- Euclidean length of a row vector (`np.linalg.norm(v)`). -/
noncomputable def vnorm {d : ℕ} (v : Pt d) : ℝ :=
  Real.sqrt (∑ i, v i ^ 2)

/-- Per-segment displacement vectors: `np.diff(points, axis=0)`. -/
noncomputable def vectors {d : ℕ} (points : List (Pt d)) : List (Pt d) :=
  List.zipWith (fun a b => b - a) points points.tail

/-- Per-segment lengths: `np.linalg.norm(vectors, axis=1)`. -/
noncomputable def norms {d : ℕ} (points : List (Pt d)) : List ℝ :=
  (vectors points).map vnorm

/-- Per-segment unit directions of `PathSample.__init__`: the segment
vector divided by its length where the length strictly exceeds
`tol.zero`; the raw segment vector (an unmodified copy) elsewhere. -/
noncomputable def unit_vec {d : ℕ} (tolZero : ℝ) (points : List (Pt d)) :
    List (Pt d) :=
  (vectors points).map (fun v => if tolZero < vnorm v then (vnorm v)⁻¹ • v else v)

/-- Total path length, `self.length = self._norms.sum()`. -/
noncomputable def pathLength {d : ℕ} (points : List (Pt d)) : ℝ :=
  (norms points).sum

/-- Running sums of a list, `np.cumsum`. -/
noncomputable def cumsum : List ℝ → List ℝ
  | [] => []
  | x :: xs => x :: (cumsum xs).map (fun y => x + y)

/-- Cumulative segment lengths, `self._cum_norm = np.cumsum(self._norms)`. -/
noncomputable def cum_norm {d : ℕ} (points : List (Pt d)) : List ℝ :=
  cumsum (norms points)

/-- Leftmost insertion index keeping the sorted order:
`np.searchsorted(l, v)` with the default `side='left'`. -/
noncomputable def searchsorted : List ℝ → ℝ → ℕ
  | [], _ => 0
  | x :: xs, v => if v ≤ x then 0 else searchsorted xs v + 1

/-- Embedding of `PathSample.sample(distances)`: per queried distance,
binary-search the cumulative array, clip to the last valid segment,
subtract the passed cumulative offset (`np.append(0, cum_norm)`), and
interpolate parametrically from the segment origin. -/
noncomputable def sample {d : ℕ} (tolZero : ℝ) (points : List (Pt d))
    (distances : List ℝ) : List (Pt d) :=
  distances.map (fun dist =>
    let pos := min (searchsorted (cum_norm points) dist)
      ((vectors points).length - 1)
    let offset := ((0 : ℝ) :: cum_norm points).getD pos 0
    let projection := dist - offset
    let direction := (unit_vec tolZero points).getD pos 0
    let origin := points.getD pos 0
    origin + projection • direction)

/-- Modelled from the spec: the external unit-vector normalizer
`unitize` — the vector scaled to unit length, with a vector of zero
length left unchanged. -/
noncomputable def unitize {d : ℕ} (v : Pt d) : Pt d :=
  if vnorm v = 0 then v else (vnorm v)⁻¹ • v

/-- The polyline built by `PathSample.truncate(distance)` before its
assertion: the prefix `points[:position + 1]`, plus one synthesized
endpoint when the remaining offset reaches `tol.merge`.  Python's
`cum_norm[position - 1]` wraps to the last entry when `position = 0`,
which is modelled explicitly. -/
noncomputable def truncateRaw {d : ℕ} (tolMerge : ℝ) (points : List (Pt d))
    (distance : ℝ) : List (Pt d) :=
  let cum := cum_norm points
  let position := searchsorted cum distance
  let offset := distance -
    (if position = 0 then cum.getLastD 0 else cum.getD (position - 1) 0)
  if offset < tolMerge then points.take (position + 1)
  else
    let vector := unitize (points.getD (position + 1) 0 - points.getD position 0)
    points.take (position + 1) ++ [points.getD position 0 + offset • vector]

/-- Embedding of `PathSample.truncate(distance)` with its trailing
assertion `(norm(diff(truncated)).sum() - distance) < tol.merge`:
`none` models the `AssertionError`. -/
noncomputable def truncate {d : ℕ} (tolMerge : ℝ) (points : List (Pt d))
    (distance : ℝ) : Option (List (Pt d)) :=
  let t := truncateRaw tolMerge points distance
  if pathLength t - distance < tolMerge then some t else none

theorem truncate_eq {d : ℕ} (tolMerge : ℝ) (points : List (Pt d))
    (distance : ℝ) :
    truncate tolMerge points distance =
      if pathLength (truncateRaw tolMerge points distance) - distance < tolMerge
      then some (truncateRaw tolMerge points distance) else none := rfl

/-- Error kinds of `resample_path`: the two explicit `ValueError`s on the
`count`/`step` arguments, and the trailing endpoint assertions. -/
inductive ResampleError : Type
  | invalidArgument : ResampleError
  | assertionFailure : ResampleError
deriving DecidableEq

/-- Evenly spaced samples, `np.linspace(a, b, n)` (endpoint included). -/
noncomputable def linspace (a b : ℝ) (n : ℕ) : List ℝ :=
  if n = 0 then []
  else if n = 1 then [a]
  else (List.range n).map
    (fun i : ℕ => a + (i : ℝ) * ((b - a) / ((n : ℝ) - 1)))

/-- Arithmetic range, `np.arange(a, b, step)` (endpoint excluded). -/
noncomputable def arange (a b step : ℝ) : List ℝ :=
  (List.range ⌈(b - a) / step⌉₊).map (fun i : ℕ => a + (i : ℝ) * step)

/-- Tail of `resample_path` shared by the `count` and `step` branches:
run `sampler.sample(samples)`, then check the endpoint assertions —
`check[0] < tol.merge` always, `check[1] < tol.merge` only when a point
count is in play. -/
noncomputable def finishResample {d : ℕ} (tolZero tolMerge : ℝ)
    (points : List (Pt d)) (samples : List ℝ) (countUsed : Bool) :
    Except ResampleError (List (Pt d)) :=
  let resampled := sample tolZero points samples
  let check0 := vnorm (points.headI - resampled.headI)
  let check1 := vnorm (points.getLastD 0 - resampled.getLastD 0)
  if check0 < tolMerge then
    if countUsed then
      if check1 < tolMerge then .ok resampled else .error .assertionFailure
    else .ok resampled
  else .error .assertionFailure

/-- Embedding of `resample_path(points, count, step, step_round)`.  The
argument check raises when both or neither of `count`/`step` is given;
with `step` and `step_round` the call short-circuits to the two input
endpoints when `step` covers the whole length and otherwise derives
`count = int(np.ceil(length / step))`; a resolved `count` samples
`np.linspace(0, length, count)`, a raw `step` samples
`np.arange(0, length, step)`. -/
noncomputable def resample_path {d : ℕ} (tolZero tolMerge : ℝ)
    (points : List (Pt d)) (count : Option ℕ) (step : Option ℝ)
    (step_round : Bool) : Except ResampleError (List (Pt d)) :=
  if count.isSome ∧ step.isSome then .error .invalidArgument
  else if count.isNone ∧ step.isNone then .error .invalidArgument
  else
    let length := pathLength points
    match step, count with
    | some s, _ =>
      if step_round then
        if length ≤ s then .ok [points.headI, points.getLastD 0]
        else
          finishResample tolZero tolMerge points
            (linspace 0 length ⌈length / s⌉₊) true
      else finishResample tolZero tolMerge points (arange 0 length s) false
    | none, some c =>
      finishResample tolZero tolMerge points (linspace 0 length c) true
    | none, none => .error .invalidArgument

/-! ## Basic facts about the embedded vector arithmetic -/

theorem vnorm_nonneg {d : ℕ} (v : Pt d) : 0 ≤ vnorm v :=
  Real.sqrt_nonneg _

theorem vnorm_zero {d : ℕ} : vnorm (0 : Pt d) = 0 := by
  simp [vnorm]

theorem vnorm_pair (x y : ℝ) : vnorm ![x, y] = Real.sqrt (x ^ 2 + y ^ 2) := by
  simp [vnorm, Fin.sum_univ_two]

theorem vnorm_pair_x (x : ℝ) (h : 0 ≤ x) : vnorm ![x, (0 : ℝ)] = x := by
  rw [vnorm_pair]
  simpa using Real.sqrt_sq h

theorem pair_sub (a b c e : ℝ) : ![a, b] - ![c, e] = ![a - c, b - e] := by
  funext i
  fin_cases i <;> simp

theorem pair_add (a b c e : ℝ) : ![a, b] + ![c, e] = ![a + c, b + e] := by
  funext i
  fin_cases i <;> simp

theorem pair_smul (r a b : ℝ) : r • ![a, b] = ![r * a, r * b] := by
  funext i
  fin_cases i <;> simp

theorem vectors_pair {d : ℕ} (p q : Pt d) : vectors [p, q] = [q - p] := by
  simp [vectors]

theorem vectors_single {d : ℕ} (p : Pt d) : vectors [p] = [] := by
  simp [vectors]

theorem pathLength_single {d : ℕ} (p : Pt d) : pathLength [p] = 0 := by
  simp [pathLength, norms, vectors_single]

theorem pathLength_pair {d : ℕ} (p q : Pt d) :
    pathLength [p, q] = vnorm (q - p) := by
  simp [pathLength, norms, vectors_pair]

theorem cum_norm_pair {d : ℕ} (p q : Pt d) :
    cum_norm [p, q] = [vnorm (q - p)] := by
  simp [cum_norm, norms, vectors_pair, cumsum]

/-- The displacement of the running example segment. -/
theorem seg10_sub : ![(10 : ℝ), 0] - ![(0 : ℝ), 0] = ![(10 : ℝ), 0] := by
  rw [pair_sub]
  norm_num

/-- The length of the running example segment. -/
theorem seg10_norm : vnorm (![(10 : ℝ), 0] - ![(0 : ℝ), 0]) = 10 := by
  rw [seg10_sub]
  exact vnorm_pair_x 10 (by norm_num)

/-- Cumulative lengths of the running example segment. -/
theorem seg10_cum : cum_norm [![(0 : ℝ), 0], ![10, 0]] = [10] := by
  rw [cum_norm_pair, seg10_norm]

/-- Evaluation of the polyline built by `truncate` on the running
example at distance `5`: `searchsorted([10], 5) = 0`, the wrapped
cumulative entry is the total length `10`, the offset `5 - 10` is below
the merge tolerance, and only the first vertex is kept. -/
theorem truncateRaw_seg10 :
    truncateRaw (1 / 10 ^ 5) [![(0 : ℝ), 0], ![10, 0]] 5 = [![(0 : ℝ), 0]] := by
  simp only [truncateRaw, seg10_cum]
  rw [searchsorted]
  rw [if_pos (by norm_num : (5 : ℝ) ≤ 10)]
  have hlast : ([(10 : ℝ)] : List ℝ).getLastD 0 = 10 := rfl
  rw [if_pos rfl, hlast]
  rw [if_pos (by norm_num : (5 : ℝ) - 10 < 1 / 10 ^ 5)]
  rfl

/-- The `finishResample` tail never produces the argument-validation
error: it returns the samples or an assertion failure. -/
theorem finishResample_ne_invalid {d : ℕ} (tolZero tolMerge : ℝ)
    (points : List (Pt d)) (samples : List ℝ) (countUsed : Bool) :
    finishResample tolZero tolMerge points samples countUsed ≠
      .error .invalidArgument := by
  intro h
  simp only [finishResample] at h
  split_ifs at h <;> simp_all

/-!
## C7: the resampler's argument validation

`resample_path` raises its `ValueError` exactly when both or neither of
`count` and `step` are supplied.
-/

/-- C7.  The resampler returns the `InvalidArgument` error if and only
if both of `count` and `step` are supplied or neither is; when exactly
one is supplied, no argument-validation error is produced (the remaining
outcomes are a result or an assertion failure). -/
theorem resample_invalid_iff {d : ℕ} (tolZero tolMerge : ℝ)
    (points : List (Pt d)) (count : Option ℕ) (step : Option ℝ)
    (step_round : Bool) :
    resample_path tolZero tolMerge points count step step_round =
        .error .invalidArgument ↔
      (count.isSome ∧ step.isSome) ∨ (count.isNone ∧ step.isNone) := by
  cases count <;> cases step
  · simp [resample_path]
  · simp only [Option.isSome_none, Option.isSome_some, Option.isNone_none,
      Option.isNone_some]
    norm_num
    intro h
    simp only [resample_path, Option.isSome_none, Option.isSome_some,
      Option.isNone_none, Option.isNone_some] at h
    norm_num at h
    split_ifs at h <;>
      exact finishResample_ne_invalid _ _ _ _ _ h
  · simp only [Option.isSome_none, Option.isSome_some, Option.isNone_none,
      Option.isNone_some]
    norm_num
    intro h
    simp only [resample_path, Option.isSome_none, Option.isSome_some,
      Option.isNone_none, Option.isNone_some] at h
    norm_num at h
    exact finishResample_ne_invalid _ _ _ _ _ h
  · simp [resample_path]

/-!
## C9: the one-sided postcondition check in `truncate`

The assertion compares the signed difference
`total_length - distance < tol.merge`, so over-length results beyond the
tolerance fail it while arbitrarily under-length results always pass.
-/

/-- C9.  The `truncate` postcondition check is one-sided: a returned
polyline's total length exceeds the requested distance by less than
`tol.merge`, and whenever the built polyline is at most as long as the
requested distance the assertion passes (it never fires on under-length
results), because the signed difference is compared rather than its
absolute value. -/
theorem truncate_assert_one_sided {d : ℕ} (tolMerge distance : ℝ)
    (points : List (Pt d)) :
    (∀ t, truncate tolMerge points distance = some t →
      pathLength t - distance < tolMerge) ∧
    (0 < tolMerge →
      pathLength (truncateRaw tolMerge points distance) ≤ distance →
      truncate tolMerge points distance =
        some (truncateRaw tolMerge points distance)) := by
  constructor
  · intro t ht
    rw [truncate_eq] at ht
    split_ifs at ht with h
    cases ht
    exact h
  · intro hm hle
    have hc : pathLength (truncateRaw tolMerge points distance) - distance <
        tolMerge := by linarith
    rw [truncate_eq, if_pos hc]

/-- Witness for the one-sided assertion: on the straight segment from
the origin to `(10, 0)` with the requested distance `5`, the built
polyline degenerates to the single first vertex of length `0`, yet the
assertion passes and `truncate` returns it. -/
theorem truncate_assert_one_sided_witness :
    (0 : ℝ) < 1 / 10 ^ 5 ∧
    pathLength (truncateRaw (1 / 10 ^ 5) [![(0 : ℝ), 0], ![10, 0]] 5) ≤ 5 ∧
    truncate (1 / 10 ^ 5) [![(0 : ℝ), 0], ![10, 0]] 5 =
      some (truncateRaw (1 / 10 ^ 5) [![(0 : ℝ), 0], ![10, 0]] 5) := by
  have hraw := truncateRaw_seg10
  have hlen : pathLength (truncateRaw (1 / 10 ^ 5) [![(0 : ℝ), 0], ![10, 0]] 5)
      ≤ 5 := by
    rw [hraw, pathLength_single]
    norm_num
  exact ⟨by norm_num, hlen,
    (truncate_assert_one_sided (1 / 10 ^ 5) 5 [![(0 : ℝ), 0], ![10, 0]]).2
      (by norm_num) hlen⟩

/-!
## C2: the truncate length contract (a code bug)

The spec requires `truncate(d)` to return a polyline of total length `d`
within the merge tolerance for every `0 < d ≤ total length`.  The code
computes `offset = distance - cum_norm[position - 1]`; for any distance
not exceeding the first segment length, `position = 0` and Python's
negative indexing wraps to the *last* cumulative entry, making the offset
negative, so only the first vertex is kept and the returned polyline has
length `0`.  The one-sided assertion (C9) lets this escape.
-/

/-- C2.  Failing input for the truncate length contract: on the segment
from the origin to `(10, 0)` with `distance = 5` and
`tol.merge = 1e-5`, `truncate` returns just the first vertex, a polyline
of total length `0`, violating the claimed `|length - 5| < tol.merge`. -/
theorem truncate_length_code_bug :
    truncate (1 / 10 ^ 5) [![(0 : ℝ), 0], ![10, 0]] 5 = some [![(0 : ℝ), 0]] ∧
    pathLength [![(0 : ℝ), 0]] = 0 ∧
    ¬ |pathLength [![(0 : ℝ), 0]] - 5| < 1 / 10 ^ 5 := by
  have hraw := truncateRaw_seg10
  refine ⟨?_, pathLength_single _, ?_⟩
  · rw [truncate_eq, hraw, pathLength_single, if_pos (by norm_num)]
  · rw [pathLength_single]
    intro h
    rw [abs_of_nonpos (by norm_num)] at h
    norm_num at h

/-! ## Facts about `np.cumsum` needed for the sampler state (C5) -/

theorem getLastD_map (f : ℝ → ℝ) (l : List ℝ) (a : ℝ) :
    (l.map f).getLastD (f a) = f (l.getLastD a) := by
  induction l generalizing a with
  | nil => rfl
  | cons b bs ih =>
    rw [List.map_cons, List.getLastD_cons, List.getLastD_cons]
    exact ih b

theorem getLastD_map2 (f : ℝ → ℝ) (l : List ℝ) (b a : ℝ) (hb : b = f a) :
    (l.map f).getLastD b = f (l.getLastD a) := by
  subst hb
  exact getLastD_map f l a

theorem cumsum_getLastD (l : List ℝ) : (cumsum l).getLastD 0 = l.sum := by
  induction l with
  | nil => rfl
  | cons x xs ih =>
    rw [cumsum, List.getLastD_cons, List.sum_cons,
      getLastD_map2 (fun y => x + y) (cumsum xs) x 0 (by norm_num), ih]

theorem cumsum_mem_nonneg (l : List ℝ) (h : ∀ x ∈ l, 0 ≤ x) :
    ∀ y ∈ cumsum l, 0 ≤ y := by
  induction l with
  | nil => intro y hy; cases hy
  | cons x xs ih =>
    intro y hy
    rw [cumsum, List.mem_cons] at hy
    rcases hy with hy | hy
    · subst hy
      exact h _ (List.mem_cons_self _ _)
    · rcases List.mem_map.mp hy with ⟨z, hz, hzy⟩
      have hz0 := ih (fun a ha => h a (List.mem_cons_of_mem _ ha)) z hz
      have hx0 := h x (List.mem_cons_self _ _)
      subst hzy
      positivity

theorem cumsum_chain (l : List ℝ) (h : ∀ x ∈ l, 0 ≤ x) :
    List.Chain' (fun a b => a ≤ b) (cumsum l) := by
  induction l with
  | nil => exact List.chain'_nil
  | cons x xs ih =>
    rw [cumsum]
    apply List.chain'_cons'.mpr
    constructor
    · intro b hb
      have hbmem : b ∈ (cumsum xs).map (fun y => x + y) :=
        List.mem_of_mem_head? hb
      rcases List.mem_map.mp hbmem with ⟨z, hz, hzb⟩
      have hz0 := cumsum_mem_nonneg xs
        (fun a ha => h a (List.mem_cons_of_mem _ ha)) z hz
      subst hzb
      linarith
    · rw [List.chain'_map]
      exact (ih (fun a ha => h a (List.mem_cons_of_mem _ ha))).imp
        (fun a b hab => by simpa using hab)

theorem norms_mem_nonneg {d : ℕ} (points : List (Pt d)) :
    ∀ x ∈ norms points, 0 ≤ x := by
  intro x hx
  rcases List.mem_map.mp hx with ⟨v, _, hvx⟩
  subst hvx
  exact vnorm_nonneg v

theorem getD_map_lt {α β : Type} (f : α → β) (l : List α) (i : ℕ)
    (h : i < l.length) (d : β) (d2 : α) :
    (l.map f).getD i d = f (l.getD i d2) := by
  rw [List.getD_eq_getElem l d2 h,
    List.getD_eq_getElem (l.map f) d (by simpa using h), List.getElem_map]

/-!
## C5: the `PathSample.__init__` state

The claim asserts a zero unit direction for segments shorter than the
*merge* tolerance.  The code thresholds at `tol.zero` (a far smaller
constant) and, below the threshold, keeps the raw segment vector — an
unmodified copy — rather than a zero vector.  The monotonicity of the
cumulative array and its final entry are as claimed.
-/

/-- C5 (amended).  On construction, the per-segment unit direction is
the segment vector divided by its length for every segment whose length
strictly exceeds the zero tolerance, while shorter segments keep the raw
segment vector (the unmodified copy, not a zero vector, and the
threshold is `tol.zero`, not `tol.merge`); the cumulative-length array
is monotonically non-decreasing and its last entry equals the total
length. -/
theorem pathsample_init_amended {d : ℕ} (tolZero : ℝ) (points : List (Pt d)) :
    (∀ i, i < (vectors points).length →
      (unit_vec tolZero points).getD i 0 =
        if tolZero < vnorm ((vectors points).getD i 0)
        then (vnorm ((vectors points).getD i 0))⁻¹ •
          (vectors points).getD i 0
        else (vectors points).getD i 0) ∧
    List.Chain' (fun a b => a ≤ b) (cum_norm points) ∧
    (cum_norm points).getLastD 0 = pathLength points := by
  refine ⟨?_, ?_, ?_⟩
  · intro i hi
    rw [unit_vec, getD_map_lt _ _ _ hi _ 0]
  · exact cumsum_chain _ (norms_mem_nonneg points)
  · rw [cum_norm, cumsum_getLastD, pathLength]

/-- Witness for the amended `__init__` facts on the 3-4-5 segment. -/
theorem pathsample_init_amended_witness :
    (0 : ℕ) < (vectors [![(0 : ℝ), 0], ![3, 4]]).length ∧
    (unit_vec (1 / 10 ^ 12) [![(0 : ℝ), 0], ![3, 4]]).getD 0 0 =
      (if (1 / 10 ^ 12 : ℝ) <
          vnorm ((vectors [![(0 : ℝ), 0], ![3, 4]]).getD 0 0)
       then (vnorm ((vectors [![(0 : ℝ), 0], ![3, 4]]).getD 0 0))⁻¹ •
         (vectors [![(0 : ℝ), 0], ![3, 4]]).getD 0 0
       else (vectors [![(0 : ℝ), 0], ![3, 4]]).getD 0 0) ∧
    (cum_norm [![(0 : ℝ), 0], ![3, 4]]).getLastD 0 =
      pathLength [![(0 : ℝ), 0], ![3, 4]] := by
  have hlen : (0 : ℕ) < (vectors [![(0 : ℝ), 0], ![3, 4]]).length := by
    rw [vectors_pair]
    norm_num
  exact ⟨hlen, (pathsample_init_amended (1 / 10 ^ 12) _).1 0 hlen,
    (pathsample_init_amended (1 / 10 ^ 12) _).2.2⟩

/-- C5, counterexample.  A segment of length `1e-6` — shorter than the
merge tolerance `1e-5` — does not get a zero unit direction: with the
code's actual threshold `tol.zero = 1e-12` it is normalized to the unit
vector `(1, 0)`. -/
theorem unit_vec_merge_counterexample :
    vnorm ((vectors [![(0 : ℝ), 0], ![1 / 10 ^ 6, 0]]).getD 0 0) < 1 / 10 ^ 5 ∧
    (unit_vec (1 / 10 ^ 12) [![(0 : ℝ), 0], ![1 / 10 ^ 6, 0]]).getD 0 0 ≠ 0 := by
  have hsub : ![(1 / 10 ^ 6 : ℝ), 0] - ![(0 : ℝ), 0] = ![(1 / 10 ^ 6 : ℝ), 0] := by
    rw [pair_sub]
    norm_num
  have hnorm : vnorm (![(1 / 10 ^ 6 : ℝ), 0] - ![(0 : ℝ), 0]) = 1 / 10 ^ 6 := by
    rw [hsub]
    exact vnorm_pair_x _ (by norm_num)
  constructor
  · rw [vectors_pair]
    rw [show ([![(1 / 10 ^ 6 : ℝ), 0] - ![(0 : ℝ), 0]].getD 0 0) =
      ![(1 / 10 ^ 6 : ℝ), 0] - ![(0 : ℝ), 0] from rfl, hnorm]
    norm_num
  · rw [unit_vec, vectors_pair]
    rw [show (([![(1 / 10 ^ 6 : ℝ), 0] - ![(0 : ℝ), 0]].map
      (fun v => if (1 / 10 ^ 12 : ℝ) < vnorm v then (vnorm v)⁻¹ • v else v)).getD 0 0) =
      (if (1 / 10 ^ 12 : ℝ) < vnorm (![(1 / 10 ^ 6 : ℝ), 0] - ![(0 : ℝ), 0])
       then (vnorm (![(1 / 10 ^ 6 : ℝ), 0] - ![(0 : ℝ), 0]))⁻¹ •
         (![(1 / 10 ^ 6 : ℝ), 0] - ![(0 : ℝ), 0])
       else (![(1 / 10 ^ 6 : ℝ), 0] - ![(0 : ℝ), 0])) from rfl]
    rw [hnorm, hsub, if_pos (by norm_num), pair_smul]
    intro h
    have h0 := congrFun h 0
    norm_num [Matrix.cons_val_zero] at h0

/-!
## C10: resampling with a step covering the whole path, rounding off

With `step_round=False` and `step ≥ length`, the sample distances
`np.arange(0, length, step)` collapse to the single distance `0`, so the
result is one point coinciding with the first input point; the second
endpoint assertion is skipped because `count is None`.
-/

theorem searchsorted_le_head (l : List ℝ) (v : ℝ) (h : ∀ x ∈ l, v ≤ x) :
    searchsorted l v = 0 := by
  cases l with
  | nil => rfl
  | cons x xs => rw [searchsorted, if_pos (h x (List.mem_cons_self _ _))]

/-- Sampling the single distance `0` returns the first point: the
binary search lands on segment `0`, the cumulative offset is `0`, and
the parametric interpolation contributes nothing. -/
theorem sample_zero {d : ℕ} (tolZero : ℝ) (p : Pt d) (rest : List (Pt d)) :
    sample tolZero (p :: rest) [0] = [p] := by
  have hpos : searchsorted (cum_norm (p :: rest)) 0 = 0 :=
    searchsorted_le_head _ _
      (fun x hx => cumsum_mem_nonneg _ (norms_mem_nonneg _) x hx)
  rw [sample, List.map_cons, List.map_nil]
  rw [hpos]
  norm_num

/-- C10.  For a point sequence of positive total length and a step at
least that length, the resampler with `step_round` disabled returns
exactly one point, the first input point (the endpoint is absent):
`np.arange(0, length, step)` reduces to the single distance `0`. -/
theorem resample_step_covers_path {d : ℕ} (tolZero tolMerge step : ℝ)
    (points : List (Pt d)) (hp : 2 ≤ points.length)
    (hL : 0 < pathLength points) (hstep : pathLength points ≤ step)
    (hm : 0 < tolMerge) :
    resample_path tolZero tolMerge points none (some step) false =
      .ok [points.headI] := by
  rcases points with _ | ⟨p, rest⟩
  · simp at hp
  have hs0 : 0 < step := lt_of_lt_of_le hL hstep
  have harange : arange 0 (pathLength (p :: rest)) step = [0] := by
    rw [arange]
    have hc : ⌈(pathLength (p :: rest) - 0) / step⌉₊ = 1 := by
      rw [Nat.ceil_eq_iff (by norm_num)]
      constructor
      · push_cast
        norm_num
        exact div_pos hL hs0
      · push_cast
        rw [sub_zero, div_le_one hs0]
        exact hstep
    rw [hc, show List.range 1 = [0] from rfl]
    simp only [List.map_cons, List.map_nil]
    norm_num
  simp only [resample_path, Option.isSome_none, Option.isSome_some,
    Option.isNone_none, Option.isNone_some]
  norm_num
  rw [harange]
  simp only [finishResample]
  rw [sample_zero]
  simp only [List.headI, sub_self, vnorm_zero]
  rw [if_pos hm]
  norm_num

/-- Witness for C10 on the running example segment with `step = 12`. -/
theorem resample_step_covers_path_witness :
    2 ≤ ([![(0 : ℝ), 0], ![10, 0]] : List (Pt 2)).length ∧
    0 < pathLength [![(0 : ℝ), 0], ![10, 0]] ∧
    pathLength [![(0 : ℝ), 0], ![10, 0]] ≤ 12 ∧
    resample_path (1 / 10 ^ 12) (1 / 10 ^ 5) [![(0 : ℝ), 0], ![10, 0]]
      none (some 12) false = .ok [![(0 : ℝ), 0]] := by
  have hlen : pathLength [![(0 : ℝ), 0], ![10, 0]] = 10 := by
    rw [pathLength_pair, seg10_norm]
  refine ⟨by norm_num, by rw [hlen]; norm_num, by rw [hlen]; norm_num, ?_⟩
  exact resample_step_covers_path (1 / 10 ^ 12) (1 / 10 ^ 5) 12 _
    (by norm_num) (by rw [hlen]; norm_num) (by rw [hlen]; norm_num)
    (by norm_num)

/-!
## C6: the `edges aren't connected` error

The reorientation loop only ever reverses entity point lists, which
swaps their endpoint pairs but leaves the unordered endpoint *sets*
untouched.  Hence `edge_direction` fails at some step exactly when some
cyclically adjacent entity pair of the path had no common endpoint to
begin with.
-/

/-- Two endpoint pairs share a vertex: one of the four comparisons of
`edge_direction` succeeds. -/
def sharesEndpoint (a b : ℕ × ℕ) : Prop :=
  a.1 = b.1 ∨ a.1 = b.2 ∨ a.2 = b.1 ∨ a.2 = b.2

instance sharesEndpoint_decidable (a b : ℕ × ℕ) :
    Decidable (sharesEndpoint a b) :=
  decidable_of_iff (a.1 = b.1 ∨ a.1 = b.2 ∨ a.2 = b.1 ∨ a.2 = b.2) Iff.rfl

theorem edge_direction_eq_none (a b : ℕ × ℕ) :
    edge_direction a b = none ↔ ¬ sharesEndpoint a b := by
  unfold edge_direction
  split_ifs <;> simp_all [sharesEndpoint]

theorem sharesEndpoint_swap_left (a b : ℕ × ℕ) :
    sharesEndpoint (Prod.swap a) b ↔ sharesEndpoint a b := by
  simp only [sharesEndpoint, Prod.fst_swap, Prod.snd_swap]
  tauto

theorem sharesEndpoint_swap_right (a b : ℕ × ℕ) :
    sharesEndpoint a (Prod.swap b) ↔ sharesEndpoint a b := by
  simp only [sharesEndpoint, Prod.fst_swap, Prod.snd_swap]
  tauto

theorem headI_getD (l : List ℕ) : l.headI = l.head?.getD 0 := by
  cases l <;> rfl

theorem headI_reverse (l : List ℕ) : l.reverse.headI = l.getLastD 0 := by
  rw [headI_getD, List.head?_reverse, List.getLastD_eq_getLast?]

theorem getLastD_reverse (l : List ℕ) : l.reverse.getLastD 0 = l.headI := by
  rw [List.getLastD_eq_getLast?, List.getLast?_reverse, headI_getD]

/-- Reversing an entity's points swaps its endpoint pair. -/
theorem end_points_reverse (l : List ℕ) :
    end_points l.reverse = Prod.swap (end_points l) := by
  unfold end_points
  rw [headI_reverse, getLastD_reverse]
  rfl

/-- Pointwise relation between two entity states: each entity's
endpoint pair agrees up to a swap (so endpoint sets agree). -/
def epSwapEquiv (f g : ℕ → List ℕ) : Prop :=
  ∀ i, end_points (f i) = end_points (g i) ∨
    end_points (f i) = Prod.swap (end_points (g i))

theorem epSwapEquiv_refl (f : ℕ → List ℕ) : epSwapEquiv f f :=
  fun _ => Or.inl rfl

theorem epSwapEquiv_trans {f g h : ℕ → List ℕ} (h1 : epSwapEquiv f g)
    (h2 : epSwapEquiv g h) : epSwapEquiv f h := by
  intro i
  rcases h1 i with ha | ha <;> rcases h2 i with hb | hb <;>
    simp [ha, hb, Prod.swap_swap]

theorem applyDir_end_points (dir : Int) (l : List ℕ) :
    end_points (applyDir dir l) = end_points l ∨
    end_points (applyDir dir l) = Prod.swap (end_points l) := by
  unfold applyDir
  split_ifs
  · exact Or.inr (end_points_reverse l)
  · exact Or.inl rfl

theorem sharesEndpoint_equiv {f g : ℕ → List ℕ} (h : epSwapEquiv f g)
    (i j : ℕ) :
    sharesEndpoint (end_points (f i)) (end_points (f j)) ↔
      sharesEndpoint (end_points (g i)) (end_points (g j)) := by
  rcases h i with hi | hi <;> rcases h j with hj | hj <;>
    rw [hi, hj] <;>
    simp [sharesEndpoint_swap_left, sharesEndpoint_swap_right]

theorem alignStep_none_iff (e : ℕ → List ℕ) (ab : ℕ × ℕ) :
    alignStep e ab = none ↔
      ¬ sharesEndpoint (end_points (e ab.1)) (end_points (e ab.2)) := by
  rw [← edge_direction_eq_none]
  cases h : edge_direction (end_points (e ab.1)) (end_points (e ab.2)) with
  | none => simp [alignStep, h]
  | some v =>
    obtain ⟨da, db⟩ := v
    simp [alignStep, h]

theorem alignStep_equiv {e e2 : ℕ → List ℕ} {ab : ℕ × ℕ}
    (h : alignStep e ab = some e2) : epSwapEquiv e2 e := by
  unfold alignStep at h
  cases hd : edge_direction (end_points (e ab.1)) (end_points (e ab.2)) with
  | none => rw [hd] at h; cases h
  | some v =>
    obtain ⟨da, db⟩ := v
    rw [hd] at h
    simp only [Option.some.injEq] at h
    subst h
    intro i
    by_cases hib : i = ab.2
    · subst hib
      rw [Function.update_same]
      by_cases hba : ab.2 = ab.1
      · rw [hba, Function.update_same]
        rcases applyDir_end_points db (applyDir da (e ab.1)) with h2 | h2 <;>
          rcases applyDir_end_points da (e ab.1) with h1 | h1 <;>
          rw [h2, h1] <;> simp [Prod.swap_swap]
      · rw [Function.update_noteq hba]
        exact applyDir_end_points db (e ab.2)
    · rw [Function.update_noteq hib]
      by_cases hia : i = ab.1
      · subst hia
        rw [Function.update_same]
        exact applyDir_end_points da (e ab.1)
      · rw [Function.update_noteq hia]
        exact Or.inl rfl

/-- The reorientation fold fails exactly when some processed pair lacks
a shared endpoint, measured against any endpoint-set-equivalent base
state (endpoint sets are invariant along the fold). -/
theorem foldlM_alignStep_none_iff (pairs : List (ℕ × ℕ))
    (e base : ℕ → List ℕ) (heq : epSwapEquiv e base) :
    pairs.foldlM alignStep e = none ↔
      ∃ p ∈ pairs,
        ¬ sharesEndpoint (end_points (base p.1)) (end_points (base p.2)) := by
  induction pairs generalizing e with
  | nil => simp
  | cons p ps ih =>
    rw [List.foldlM_cons]
    cases hstep : alignStep e p with
    | none =>
      have hns : ¬ sharesEndpoint (end_points (e p.1)) (end_points (e p.2)) :=
        (alignStep_none_iff e p).mp hstep
      rw [sharesEndpoint_equiv heq p.1 p.2] at hns
      constructor
      · intro _
        exact ⟨p, List.mem_cons_self _ _, hns⟩
      · intro _
        rfl
    | some e2 =>
      have heq2 : epSwapEquiv e2 base :=
        epSwapEquiv_trans (alignStep_equiv hstep) heq
      have hsh : sharesEndpoint (end_points (e p.1)) (end_points (e p.2)) := by
        by_contra hns
        rw [← alignStep_none_iff e p] at hns
        rw [hns] at hstep
        cases hstep
      have hmain : (List.foldlM alignStep e2 ps = none) ↔
          ∃ q ∈ p :: ps,
            ¬ sharesEndpoint (end_points (base q.1)) (end_points (base q.2)) := by
        rw [ih e2 heq2]
        constructor
        · intro ⟨q, hq, hqs⟩
          exact ⟨q, List.mem_cons_of_mem _ hq, hqs⟩
        · intro ⟨q, hq, hqs⟩
          rcases List.mem_cons.mp hq with hq | hq
          · subst hq
            exact absurd ((sharesEndpoint_equiv heq q.1 q.2).mp hsh) hqs
          · exact ⟨q, hq, hqs⟩
      exact hmain

/-- The reorientation pass errors exactly when some cyclically adjacent
entity pair of the path has disjoint endpoint pairs. -/
theorem alignPass_none_iff (ents : ℕ → List ℕ) (path : List ℕ) :
    alignPass ents path = none ↔
      ∃ p ∈ roundTripPairs path,
        ¬ sharesEndpoint (end_points (ents p.1)) (end_points (ents p.2)) :=
  foldlM_alignStep_none_iff _ _ _ (epSwapEquiv_refl ents)

/-- C6.  If some cyclically adjacent entity pair of the path shares no
endpoint, the reorientation pass of cycle resolution fails with the
`edges aren't connected` error rather than continuing; conversely, when
every adjacent pair shares an endpoint (in particular when each shares
exactly one), no such error is raised. -/
theorem edges_not_connected_iff (ents : ℕ → List ℕ) (path : List ℕ) :
    ((∃ p ∈ roundTripPairs path,
        ¬ sharesEndpoint (end_points (ents p.1)) (end_points (ents p.2))) →
      alignPass ents path = none) ∧
    ((∀ p ∈ roundTripPairs path,
        sharesEndpoint (end_points (ents p.1)) (end_points (ents p.2))) →
      ∃ e2, alignPass ents path = some e2) := by
  constructor
  · exact (alignPass_none_iff ents path).mpr
  · intro hall
    have hne : alignPass ents path ≠ none := by
      intro hnone
      rcases (alignPass_none_iff ents path).mp hnone with ⟨p, hp, hps⟩
      exact hps (hall p hp)
    cases h : alignPass ents path with
    | none => exact absurd h hne
    | some e2 => exact ⟨e2, rfl⟩

/-- Witness for C6: a two-entity cycle with disjoint endpoint pairs
errors, the connected variant resolves. -/
theorem edges_not_connected_witness :
    alignPass (fun i => [3 * i, 3 * i + 1]) [0, 1] = none ∧
    ∃ e2, alignPass (fun i => [i, i + 1]) [0, 1] = some e2 := by
  constructor
  · exact (edges_not_connected_iff (fun i => [3 * i, 3 * i + 1]) [0, 1]).1
      ⟨(0, 1), by decide, by decide⟩
  · exact (edges_not_connected_iff (fun i => [i, i + 1]) [0, 1]).2 (by decide)

/-!
## C4: winding orientation of the resolved entity path

`ccw_direction = (is_ccw(ring) * 2) - 1` keeps the deduplicated entity
sequence forward for a CCW ring, reverses it for a CW ring, and defaults
to forward when no coordinates are supplied; hence reversing the winding
of the coordinates reverses the resolved entity path.
-/

theorem applyDir_one (l : List ℕ) : applyDir 1 l = l := rfl

theorem applyDir_neg_one (l : List ℕ) : applyDir (-1) l = l.reverse := rfl

theorem roundTripPairs_def (path : List ℕ) :
    roundTripPairs path =
      (path ++ [path.headI]).zip (path ++ [path.headI]).tail := rfl

/-- The cyclic pair list, indexed: pair `m` joins position `m` to
position `(m + 1) mod length`. -/
theorem roundTripPairs_eq (path : List ℕ) :
    roundTripPairs path = (List.range path.length).map
      (fun m => (path.getD m 0, path.getD ((m + 1) % path.length) 0)) := by
  cases hpath : path with
  | nil => rfl
  | cons a as =>
    rw [← hpath]
    have hne : path ≠ [] := by rw [hpath]; exact List.cons_ne_nil a as
    have hk : 0 < path.length := List.length_pos.mpr hne
    apply List.ext_getElem
    · simp [roundTripPairs_def]
    · intro i h1 h2
      have hi : i < path.length := by simpa using h2
      have hA : (path ++ [path.headI]).length = path.length + 1 := by
        simp
      simp only [roundTripPairs_def]
      rw [List.getElem_zip]
      rw [List.getElem_map, List.getElem_range]
      have hiA : i < (path ++ [path.headI]).length := by
        rw [hA]
        omega
      have hiT : i < (path ++ [path.headI]).tail.length := by
        simp
        omega
      have hfst : (path ++ [path.headI])[i] = path.getD i 0 := by
        rw [List.getElem_append_left hi, List.getD_eq_getElem _ _ hi]
      have hsnd : (path ++ [path.headI]).tail[i] =
          path.getD ((i + 1) % path.length) 0 := by
        rw [List.getElem_tail]
        rcases Nat.lt_or_ge (i + 1) path.length with hlt | hge
        · rw [List.getElem_append_left hlt, Nat.mod_eq_of_lt hlt,
            List.getD_eq_getElem _ _ hlt]
        · have heq : i + 1 = path.length := by omega
          rw [List.getElem_append_right (by omega)]
          have h0 : (i + 1) % path.length = 0 := by
            rw [heq, Nat.mod_self]
          have hsub : i + 1 - path.length = 0 := by omega
          simp only [hsub, h0, List.getElem_cons_zero]
          rw [List.getD_eq_getElem _ _ hk, headI_getD, List.head?_eq_getElem?,
            List.getElem?_eq_getElem hk]
          rfl
      rw [hfst, hsnd]

theorem getD_reverse (l : List ℕ) (m : ℕ) (h : m < l.length) :
    l.reverse.getD m 0 = l.getD (l.length - 1 - m) 0 := by
  rw [List.getD_eq_getElem _ _ (by simpa using h),
    List.getD_eq_getElem _ _ (by omega), List.getElem_reverse]

/-- Cyclic adjacency in the reversed path is cyclic adjacency in the
original path with the pair roles swapped. -/
theorem roundTripPairs_reverse_mem (l : List ℕ) (q : ℕ × ℕ)
    (hq : q ∈ roundTripPairs l.reverse) :
    Prod.swap q ∈ roundTripPairs l := by
  rw [roundTripPairs_eq] at hq ⊢
  rw [List.mem_map] at hq ⊢
  obtain ⟨m, hm, rfl⟩ := hq
  rw [List.mem_range, List.length_reverse] at hm
  have hk : 0 < l.length := Nat.pos_of_ne_zero (by omega)
  have hxlt : (m + 1) % l.length < l.length := Nat.mod_lt _ hk
  refine ⟨l.length - 1 - (m + 1) % l.length, by rw [List.mem_range]; omega, ?_⟩
  simp only [List.length_reverse, Prod.swap_prod_mk]
  rw [getD_reverse _ _ hm, getD_reverse _ _ hxlt]
  have hidx : (l.length - 1 - (m + 1) % l.length + 1) % l.length =
      l.length - 1 - m := by
    rcases Nat.lt_or_ge (m + 1) l.length with hlt | hge
    · rw [Nat.mod_eq_of_lt hlt, Nat.mod_eq_of_lt (by omega)]
      omega
    · have heq : m + 1 = l.length := by omega
      rw [heq, Nat.mod_self]
      have : l.length - 1 - 0 + 1 = l.length := by omega
      rw [this, Nat.mod_self]
      omega
  rw [hidx]

/-- C4.  With coordinates supplied, the resolver keeps the deduplicated
entity sequence in forward traversal order when the closed ring passes
the CCW test and reverses it when the test fails; with no coordinates it
keeps forward order; consequently resolving the same vertex cycle with
the winding of the coordinates reversed yields the entity path exactly
reversed. -/
theorem resolver_orientation {P : Type} (graph : ℕ → ℕ → Option ℕ)
    (ents : ℕ → List ℕ) (vp : List ℕ) (is_ccw : List P → Bool)
    (V V2 : ℕ → P)
    (hV : is_ccw ((vp ++ [vp.headI]).map V) = true)
    (hV2 : is_ccw ((vp ++ [vp.headI]).map V2) = false)
    (p : List ℕ) (e1 : ℕ → List ℕ)
    (h : vertex_to_entity_path graph ents vp (some V) is_ccw = some (p, e1)) :
    (∃ c, collectEntities graph vp = some c ∧ p = unique_ordered c) ∧
    (∃ e2, vertex_to_entity_path graph ents vp (some V2) is_ccw =
      some (p.reverse, e2)) ∧
    (∀ p0 e0, vertex_to_entity_path graph ents vp (none : Option (ℕ → P))
      is_ccw = some (p0, e0) → p0 = p) := by
  cases hc : collectEntities graph vp with
  | none => simp [vertex_to_entity_path, hc] at h
  | some c =>
    rw [vertex_to_entity_path] at h
    rw [hV, hc] at h
    norm_num at h
    rw [applyDir_one] at h
    cases ha : alignPass ents (unique_ordered c) with
    | none => rw [ha] at h; cases h
    | some ea =>
      rw [ha] at h
      simp only [Option.some.injEq, Prod.mk.injEq] at h
      obtain ⟨hp, he1⟩ := h
      subst hp
      refine ⟨⟨c, rfl, rfl⟩, ?_, ?_⟩
      · have hnone : alignPass ents (unique_ordered c).reverse ≠ none := by
          intro hn
          rcases (alignPass_none_iff _ _).mp hn with ⟨q, hqmem, hqs⟩
          have hmem2 := roundTripPairs_reverse_mem _ _ hqmem
          have hshares : ∀ r ∈ roundTripPairs (unique_ordered c),
              sharesEndpoint (end_points (ents r.1)) (end_points (ents r.2)) := by
            intro r hr
            by_contra hrs
            have : alignPass ents (unique_ordered c) = none :=
              (alignPass_none_iff _ _).mpr ⟨r, hr, hrs⟩
            rw [this] at ha
            cases ha
          have := hshares _ hmem2
          simp only [Prod.fst_swap, Prod.snd_swap] at this
          apply hqs
          rcases this with h1 | h1 | h1 | h1 <;>
            simp [sharesEndpoint, h1]
        cases he2 : alignPass ents (unique_ordered c).reverse with
        | none => exact absurd he2 hnone
        | some e2 =>
          refine ⟨e2, ?_⟩
          rw [vertex_to_entity_path, hV2, hc]
          norm_num
          rw [applyDir_neg_one, he2]
      · intro p0 e0 h0
        rw [vertex_to_entity_path, hc] at h0
        simp only [applyDir_one, ha, Option.some.injEq, Prod.mk.injEq] at h0
        exact h0.1.symm

/-- A four-edge square for the orientation witness: edge `{i, i+1 mod 4}`
carries entity `i`. -/
def sqGraph : ℕ → ℕ → Option ℕ := fun a b =>
  match a, b with
  | 0, 1 => some 0
  | 1, 0 => some 0
  | 1, 2 => some 1
  | 2, 1 => some 1
  | 2, 3 => some 2
  | 3, 2 => some 2
  | 3, 0 => some 3
  | 0, 3 => some 3
  | _, _ => none

/-- The square's entities as their point lists. -/
def sqEnts : ℕ → List ℕ := fun i =>
  match i with
  | 0 => [0, 1]
  | 1 => [1, 2]
  | 2 => [2, 3]
  | 3 => [3, 0]
  | _ => []

/-- Witness for C4 on the square: flipping the (black-box) CCW verdict
of the coordinate ring reverses the resolved entity path. -/
theorem resolver_orientation_witness :
    ∃ e2, vertex_to_entity_path sqGraph sqEnts [0, 1, 2, 3]
      (some (fun _ : ℕ => false)) (fun l : List Bool => l.headI) =
      some (([0, 1, 2, 3] : List ℕ).reverse, e2) := by
  have h : ∃ e1, vertex_to_entity_path sqGraph sqEnts [0, 1, 2, 3]
      (some (fun _ : ℕ => true)) (fun l : List Bool => l.headI) =
      some ([0, 1, 2, 3], e1) := ⟨_, rfl⟩
  obtain ⟨e1, h⟩ := h
  exact (resolver_orientation sqGraph sqEnts [0, 1, 2, 3]
    (fun l : List Bool => l.headI) (fun _ => true) (fun _ => false)
    rfl rfl [0, 1, 2, 3] e1 h).2.1

/-!
## C8: the discretizer's concatenation

The enumeration loop concatenates, dropping the last point of every
entity but the final one — and then the result is CCW-normalized: for 2D
vertices failing the CCW test it is reversed, so a single clockwise
entity is *not* returned directly.
-/

/-- The enumeration loop, closed form: every entity but the last
contributes its points without the final one, the last contributes all. -/
theorem walkDiscrete_eq {P : Type} (f : ℕ → List P) (total : ℕ) :
    ∀ (path : List ℕ) (i : ℕ), path ≠ [] → i + path.length = total →
    walkDiscrete f total i path =
      (path.dropLast.map (fun e => (f e).dropLast)).flatten ++ f (path.getLastD 0)
  | [], _, hne, _ => absurd rfl hne
  | [e], i, _, htot => by
    rw [walkDiscrete, walkDiscrete]
    rw [if_pos (by simp at htot; omega)]
    simp
  | e :: e2 :: rest, i, _, htot => by
    rw [walkDiscrete]
    rw [if_neg (by simp at htot ⊢; omega)]
    rw [walkDiscrete_eq f total (e2 :: rest) (i + 1) (List.cons_ne_nil _ _)
      (by simp at htot ⊢; omega)]
    simp [List.append_assoc]

/-- C8 (amended).  The discretizer errors on an empty path, and on a
non-empty path returns the concatenation — a single entity's points
directly, or for `m ≥ 2` each entity's points with the final point
dropped except for the last entity — *followed by the CCW
normalization*: when the vertices are 2D and the concatenation fails the
CCW test, the reversed concatenation is returned instead. -/
theorem discretize_path_amended {P : Type} (f : ℕ → List P) (dim : ℕ)
    (is_ccw : List P → Bool) (path : List ℕ) (h : path ≠ []) :
    discretize_path f dim is_ccw [] = none ∧
    discretize_path f dim is_ccw path =
      some (if dim = 2 ∧ is_ccw
              ((path.dropLast.map (fun e => (f e).dropLast)).flatten ++
                f (path.getLastD 0)) = false
            then ((path.dropLast.map (fun e => (f e).dropLast)).flatten ++
              f (path.getLastD 0)).reverse
            else (path.dropLast.map (fun e => (f e).dropLast)).flatten ++
              f (path.getLastD 0)) := by
  refine ⟨rfl, ?_⟩
  have hlen0 : ¬ path.length = 0 := by
    simpa [List.length_eq_zero] using h
  have hD : (if path.length = 1 then f path.headI
      else walkDiscrete f path.length 0 path) =
      (path.dropLast.map (fun e => (f e).dropLast)).flatten ++
        f (path.getLastD 0) := by
    by_cases h1 : path.length = 1
    · obtain ⟨e, rfl⟩ := List.length_eq_one.mp h1
      simp
    · rw [if_neg h1]
      exact walkDiscrete_eq f path.length path 0 h (by omega)
  simp only [discretize_path, if_neg hlen0, hD]
  split_ifs <;> rfl

/-- Witness for the amended discretizer contract on a two-entity path
with 3D vertices (no CCW branch). -/
theorem discretize_path_amended_witness :
    ([0, 1] : List ℕ) ≠ [] ∧
    discretize_path (fun e => [e, e + 10]) 3 (fun _ => true) [0, 1] =
      some [0, 1, 11] := by
  constructor
  · exact List.cons_ne_nil _ _
  · have h := (discretize_path_amended (fun e => [e, e + 10]) 3 (fun _ => true)
      [0, 1] (List.cons_ne_nil _ _)).2
    rw [h]
    decide

/-- C8, counterexample.  A single-entity path whose discretization is a
clockwise 2D triangle is returned *reversed* by the discretizer, not
directly: the trailing CCW normalization reverses it. -/
theorem discretize_direct_counterexample :
    discretize_path (fun _ => [((0 : ℤ), (0 : ℤ)), (0, 1), (1, 0), (0, 0)]) 2
      is_ccw_shoelace [0] =
      some [((0 : ℤ), (0 : ℤ)), (1, 0), (0, 1), (0, 0)] ∧
    ([((0 : ℤ), (0 : ℤ)), (1, 0), (0, 1), (0, 0)] : List (ℤ × ℤ)) ≠
      [((0 : ℤ), (0 : ℤ)), (0, 1), (1, 0), (0, 0)] := by
  constructor
  · decide
  · decide

/-!
## C1: step-rounded resampling

With `step` and `step_round`, the code derives
`count = ceil(length/step)` *points* — so the `count - 1` uniform
intervals have width `length/(count-1)`, which always strictly exceeds
the requested step.  The endpoint itself is reached exactly.  On the
segment of length `10` with `step = 3` the spacing is `10/3 > 3`,
refuting the claimed `spacing ≤ step`.
-/

theorem pair_congr (a b c e : ℝ) (h1 : a = c) (h2 : b = e) :
    ![a, b] = ![c, e] := by
  rw [h1, h2]

/-- The unit direction of the running example segment, for any zero
tolerance below the segment length. -/
theorem seg10_unit (t : ℝ) (ht : t < 10) :
    unit_vec t [![(0 : ℝ), 0], ![10, 0]] = [![(1 : ℝ), 0]] := by
  rw [unit_vec, vectors_pair, List.map_cons, List.map_nil]
  simp only [seg10_norm]
  rw [if_pos ht, seg10_sub, pair_smul]
  rw [pair_congr ((10 : ℝ)⁻¹ * 10) ((10 : ℝ)⁻¹ * 0) 1 0 (by norm_num) (by norm_num)]

/-- Sampling on the running example segment is the parametric line
`v ↦ (v, 0)`: the clip always lands on the single segment. -/
theorem sample_seg10 (t : ℝ) (ht : t < 10) (ds : List ℝ) :
    sample t [![(0 : ℝ), 0], ![10, 0]] ds = ds.map (fun v => ![v, 0]) := by
  rw [sample]
  apply List.map_congr_left
  intro v _
  have hmin : min (searchsorted (cum_norm [![(0 : ℝ), 0], ![10, 0]]) v)
      ((vectors [![(0 : ℝ), 0], ![10, 0]]).length - 1) = 0 := by
    rw [vectors_pair]
    simp
  simp only [hmin]
  rw [show ((0 : ℝ) :: cum_norm [![(0 : ℝ), 0], ![10, 0]]).getD 0 0 =
    (0 : ℝ) from rfl]
  have hu : (unit_vec t [![(0 : ℝ), 0], ![10, 0]]).getD 0 0 =
      ![(1 : ℝ), 0] := by
    rw [seg10_unit t ht, List.getD_cons_zero]
  rw [hu]
  rw [show ([![(0 : ℝ), 0], ![10, 0]] : List (Pt 2)).getD 0 0 =
    ![(0 : ℝ), 0] from rfl]
  rw [pair_smul, pair_add]
  exact pair_congr _ _ _ _ (by ring) (by ring)

theorem ceil_10_3 : ⌈(10 : ℝ) / 3⌉₊ = 4 := by
  rw [Nat.ceil_eq_iff (by norm_num)]
  norm_num

theorem linspace_10_3 : linspace 0 10 4 = [0, 10 / 3, 20 / 3, 10] := by
  rw [linspace, if_neg (by norm_num), if_neg (by norm_num),
    show List.range 4 = [0, 1, 2, 3] from rfl]
  simp only [List.map_cons, List.map_nil]
  norm_num

/-- Unfolding of the step-with-rounding branch of `resample_path`. -/
theorem resample_round_eq {d : ℕ} (tz tm s : ℝ) (pts : List (Pt d)) :
    resample_path tz tm pts none (some s) true =
      if pathLength pts ≤ s then .ok [pts.headI, pts.getLastD 0]
      else finishResample tz tm pts
        (linspace 0 (pathLength pts) ⌈pathLength pts / s⌉₊) true := rfl

/-- Full evaluation of the step-rounded resampler on the running
example: four points at parameters `0, 10/3, 20/3, 10`. -/
theorem resample_seg10_eval :
    resample_path (1 / 10 ^ 12) (1 / 10 ^ 5) [![(0 : ℝ), 0], ![10, 0]]
      none (some 3) true =
      .ok [![(0 : ℝ), 0], ![10 / 3, 0], ![20 / 3, 0], ![10, 0]] := by
  have hlen : pathLength [![(0 : ℝ), 0], ![10, 0]] = 10 := by
    rw [pathLength_pair, seg10_norm]
  rw [resample_round_eq]
  simp only [hlen]
  rw [if_neg (by norm_num : ¬ (10 : ℝ) ≤ 3), ceil_10_3, linspace_10_3]
  simp only [finishResample]
  rw [sample_seg10 _ (by norm_num)]
  simp only [List.map_cons, List.map_nil, List.headI]
  have hmap : ([![(0 : ℝ), 0], ![(10 / 3 : ℝ), 0], ![(20 / 3 : ℝ), 0],
      ![(10 : ℝ), 0]] : List (Pt 2)).getLastD 0 = ![(10 : ℝ), 0] := rfl
  have hlast : ([![(0 : ℝ), 0], ![10, 0]] : List (Pt 2)).getLastD 0 =
      ![(10 : ℝ), 0] := rfl
  rw [hmap, hlast]
  simp only [sub_self, vnorm_zero]
  norm_num

/-- C1, counterexample.  The step-rounded resampler on the segment
`[(0,0), (10,0)]` with `step = 3` returns points whose consecutive
spacing is `10/3`, exceeding the requested step `3`: the claimed
`spacing ≤ step` is false. -/
theorem resample_step_round_counterexample :
    resample_path (1 / 10 ^ 12) (1 / 10 ^ 5) [![(0 : ℝ), 0], ![10, 0]]
      none (some 3) true =
      .ok [![(0 : ℝ), 0], ![10 / 3, 0], ![20 / 3, 0], ![10, 0]] ∧
    ¬ vnorm (![(10 / 3 : ℝ), 0] - ![(0 : ℝ), 0]) ≤ 3 := by
  refine ⟨resample_seg10_eval, ?_⟩
  have hsub : ![(10 / 3 : ℝ), 0] - ![(0 : ℝ), 0] = ![(10 / 3 : ℝ), 0] := by
    rw [pair_sub]
    exact pair_congr _ _ _ _ (by norm_num) (by norm_num)
  rw [hsub, vnorm_pair_x _ (by norm_num)]
  norm_num

/-- C1 (amended).  With `step` given, rounding enabled and
`0 < step < length`, the resampler derives `count = ⌈length/step⌉` and
samples `count` parameters uniformly spaced by `length/(count-1)` — a
spacing that strictly *exceeds* the requested step — with the final
parameter exactly the total length, so the endpoint is reached exactly;
on `[(0,0),(10,0)]` with `step = 3` the result is
`[(0,0), (10/3,0), (20/3,0), (10,0)]` with last point exactly `(10,0)`
and uniform consecutive spacing `10/3 > 3`. -/
theorem resample_step_round_amended (L s : ℝ) (hs : 0 < s) (hL : s < L) :
    2 ≤ ⌈L / s⌉₊ ∧
    (∀ j, j < ⌈L / s⌉₊ →
      (linspace 0 L ⌈L / s⌉₊).getD j 0 =
        j * (L / ((⌈L / s⌉₊ : ℝ) - 1))) ∧
    s < L / ((⌈L / s⌉₊ : ℝ) - 1) ∧
    (linspace 0 L ⌈L / s⌉₊).getD (⌈L / s⌉₊ - 1) 0 = L ∧
    resample_path (1 / 10 ^ 12) (1 / 10 ^ 5) [![(0 : ℝ), 0], ![10, 0]]
      none (some 3) true =
      .ok [![(0 : ℝ), 0], ![10 / 3, 0], ![20 / 3, 0], ![10, 0]] ∧
    vnorm (![(10 / 3 : ℝ), 0] - ![(0 : ℝ), 0]) = 10 / 3 ∧
    vnorm (![(20 / 3 : ℝ), 0] - ![(10 / 3 : ℝ), 0]) = 10 / 3 ∧
    vnorm (![(10 : ℝ), 0] - ![(20 / 3 : ℝ), 0]) = 10 / 3 := by
  have hL0 : 0 < L := lt_trans hs hL
  have hdiv1 : (1 : ℝ) < L / s := (one_lt_div hs).mpr hL
  have hc2 : 2 ≤ ⌈L / s⌉₊ := by
    have := Nat.lt_ceil.mpr (by exact_mod_cast hdiv1 : ((1 : ℕ) : ℝ) < L / s)
    omega
  have hcc : ((⌈L / s⌉₊ : ℝ) - 1) > 0 := by
    have : (2 : ℝ) ≤ (⌈L / s⌉₊ : ℝ) := by exact_mod_cast hc2
    linarith
  have hgetD : ∀ j, j < ⌈L / s⌉₊ →
      (linspace 0 L ⌈L / s⌉₊).getD j 0 =
        j * (L / ((⌈L / s⌉₊ : ℝ) - 1)) := by
    intro j hj
    rw [linspace, if_neg (by omega), if_neg (by omega)]
    rw [getD_map_lt _ _ _ (by simpa using hj) _ 0]
    rw [List.getD_eq_getElem _ _ (by simpa using hj), List.getElem_range]
    rw [zero_add, sub_zero]
  refine ⟨hc2, hgetD, ?_, ?_, resample_seg10_eval, ?_, ?_, ?_⟩
  · have hlt : (⌈L / s⌉₊ : ℝ) < L / s + 1 :=
      Nat.ceil_lt_add_one (le_of_lt (div_pos hL0 hs))
    rw [lt_div_iff₀ hcc]
    have h1 : (⌈L / s⌉₊ : ℝ) - 1 < L / s := by linarith
    calc s * ((⌈L / s⌉₊ : ℝ) - 1) < s * (L / s) := by
          exact (mul_lt_mul_left hs).mpr h1
      _ = L := by field_simp
  · rw [hgetD _ (by omega)]
    have h1 : 1 ≤ ⌈L / s⌉₊ := by omega
    have hcast : ((⌈L / s⌉₊ - 1 : ℕ) : ℝ) = (⌈L / s⌉₊ : ℝ) - 1 := by
      rw [Nat.cast_sub h1, Nat.cast_one]
    rw [hcast, mul_comm, div_mul_cancel₀ _ (ne_of_gt hcc)]
  · have hsub : ![(10 / 3 : ℝ), 0] - ![(0 : ℝ), 0] = ![(10 / 3 : ℝ), 0] := by
      rw [pair_sub]
      exact pair_congr _ _ _ _ (by norm_num) (by norm_num)
    rw [hsub, vnorm_pair_x _ (by norm_num)]
  · have hsub : ![(20 / 3 : ℝ), 0] - ![(10 / 3 : ℝ), 0] =
        ![(10 / 3 : ℝ), 0] := by
      rw [pair_sub]
      exact pair_congr _ _ _ _ (by norm_num) (by norm_num)
    rw [hsub, vnorm_pair_x _ (by norm_num)]
  · have hsub : ![(10 : ℝ), 0] - ![(20 / 3 : ℝ), 0] = ![(10 / 3 : ℝ), 0] := by
      rw [pair_sub]
      exact pair_congr _ _ _ _ (by norm_num) (by norm_num)
    rw [hsub, vnorm_pair_x _ (by norm_num)]

/-- Witness for the amended step-rounding facts at `L = 10`, `s = 3`. -/
theorem resample_step_round_amended_witness :
    (0 : ℝ) < 3 ∧ (3 : ℝ) < 10 ∧ 2 ≤ ⌈(10 : ℝ) / 3⌉₊ ∧
    3 < (10 : ℝ) / ((⌈(10 : ℝ) / 3⌉₊ : ℝ) - 1) ∧
    (linspace 0 10 ⌈(10 : ℝ) / 3⌉₊).getD (⌈(10 : ℝ) / 3⌉₊ - 1) 0 = 10 := by
  have h := resample_step_round_amended 10 3 (by norm_num) (by norm_num)
  exact ⟨by norm_num, by norm_num, h.1, h.2.2.1, h.2.2.2.1⟩

/-!
## C3: adjacency of consecutive entities after resolution

The reorientation loop walks the cyclic pair list once; we prove that on
a well-formed simple cycle (distinct junction vertices, each entity
spanning consecutive junctions in one of the two orders) the loop
produces the state in which every entity is oriented head-to-tail, so
every cyclically consecutive pair `(a, b)` satisfies
`points(a)[-1] = points(b)[0]`.
-/

/-- Orient an entity list to start at vertex `u`: reverse it when its
head is elsewhere. -/
def orient (l : List ℕ) (u : ℕ) : List ℕ :=
  if l.headI = u then l else l.reverse

/-- The head-to-tail target state: entities at path positions `0..j`
oriented along the junction labels `w`, the rest untouched. -/
def alignedUpTo (ents : ℕ → List ℕ) (path : List ℕ) (w : ℕ → ℕ) :
    ℕ → ℕ → List ℕ
  | 0 => Function.update ents (path.getD 0 0)
      (orient (ents (path.getD 0 0)) (w 0))
  | j + 1 => Function.update (alignedUpTo ents path w j) (path.getD (j + 1) 0)
      (orient (ents (path.getD (j + 1) 0)) (w (j + 1)))

theorem alignedUpTo_zero (ents : ℕ → List ℕ) (path : List ℕ) (w : ℕ → ℕ) :
    alignedUpTo ents path w 0 =
      Function.update ents (path.getD 0 0)
        (orient (ents (path.getD 0 0)) (w 0)) := rfl

theorem alignedUpTo_succ (ents : ℕ → List ℕ) (path : List ℕ) (w : ℕ → ℕ)
    (j : ℕ) :
    alignedUpTo ents path w (j + 1) =
      Function.update (alignedUpTo ents path w j) (path.getD (j + 1) 0)
        (orient (ents (path.getD (j + 1) 0)) (w (j + 1))) := rfl

/-- A cyclic entity path is well formed when it has at least two
entities, no duplicates, and its entities span consecutive members of an
injective junction-vertex labelling (in either internal order). -/
def IsJunctionCycle (ents : ℕ → List ℕ) (path : List ℕ) (w : ℕ → ℕ) :
    Prop :=
  2 ≤ path.length ∧ path.Nodup ∧ w path.length = w 0 ∧
  (∀ a, a < path.length → ∀ b, b < path.length → w a = w b → a = b) ∧
  (∀ m, m < path.length →
    end_points (ents (path.getD m 0)) = (w m, w (m + 1)) ∨
    end_points (ents (path.getD m 0)) = (w (m + 1), w m))

theorem end_points_fst {l : List ℕ} {u v : ℕ} (h : end_points l = (u, v)) :
    l.headI = u := congrArg Prod.fst h

theorem end_points_snd {l : List ℕ} {u v : ℕ} (h : end_points l = (u, v)) :
    l.getLastD 0 = v := congrArg Prod.snd h

/-- Orienting an entity that spans `{u, v}` to start at `u` gives it the
endpoint pair `(u, v)` exactly. -/
theorem orient_end_points {l : List ℕ} {u v : ℕ} (huv : u ≠ v)
    (h : end_points l = (u, v) ∨ end_points l = (v, u)) :
    end_points (orient l u) = (u, v) := by
  rcases h with h | h
  · rw [orient, if_pos (end_points_fst h)]
    exact h
  · have hh : l.headI = v := end_points_fst h
    rw [orient, if_neg (by rw [hh]; exact fun he => huv he.symm)]
    rw [end_points_reverse, h]
    rfl

theorem nodup_getD_ne {path : List ℕ} (hnd : path.Nodup) {a b : ℕ}
    (ha : a < path.length) (hb : b < path.length) (hab : a ≠ b) :
    path.getD a 0 ≠ path.getD b 0 := by
  rw [List.getD_eq_getElem _ _ ha, List.getD_eq_getElem _ _ hb]
  intro h
  exact hab ((List.Nodup.getElem_inj_iff hnd).mp h)

theorem alignedUpTo_at {ents : ℕ → List ℕ} {path : List ℕ} {w : ℕ → ℕ}
    (hnd : path.Nodup) :
    ∀ j, j < path.length → ∀ m, m ≤ j →
    alignedUpTo ents path w j (path.getD m 0) =
      orient (ents (path.getD m 0)) (w m) := by
  intro j
  induction j with
  | zero =>
    intro _ m hm
    rw [Nat.le_zero.mp hm, alignedUpTo_zero, Function.update_same]
  | succ j ih =>
    intro hj m hm
    rcases Nat.lt_or_ge m (j + 1) with hlt | hge
    · rw [alignedUpTo_succ, Function.update_noteq
        (nodup_getD_ne hnd (by omega) hj (by omega))]
      exact ih (by omega) m (by omega)
    · have hm1 : m = j + 1 := by omega
      subst hm1
      rw [alignedUpTo_succ, Function.update_same]

theorem alignedUpTo_out {ents : ℕ → List ℕ} {path : List ℕ} {w : ℕ → ℕ} :
    ∀ j (i : ℕ), (∀ m, m ≤ j → path.getD m 0 ≠ i) →
    alignedUpTo ents path w j i = ents i := by
  intro j
  induction j with
  | zero =>
    intro i hi
    rw [alignedUpTo_zero, Function.update_noteq (Ne.symm (hi 0 le_rfl))]
  | succ j ih =>
    intro i hi
    rw [alignedUpTo_succ,
      Function.update_noteq (Ne.symm (hi (j + 1) le_rfl))]
    exact ih i (fun m hm => hi m (by omega))

/-- Unfolding of one reorientation step once the direction pair is
known. -/
theorem alignStep_some_eq (σ : ℕ → List ℕ) (ab : ℕ × ℕ) (da db : Int)
    (h : edge_direction (end_points (σ ab.1)) (end_points (σ ab.2)) =
      some (da, db)) :
    alignStep σ ab =
      some (Function.update
        (Function.update σ ab.1 (applyDir da (σ ab.1))) ab.2
        (applyDir db
          ((Function.update σ ab.1 (applyDir da (σ ab.1))) ab.2))) := by
  unfold alignStep
  rw [h]

/-- A step whose first entity already points forward (`(x, y)` with the
next junction `y`): the first entity is untouched and the second is
oriented to start at `y`. -/
theorem alignStep_keep (σ : ℕ → List ℕ) (a b : ℕ)
    (x y z : ℕ) (hxy : x ≠ y) (hxz : x ≠ z) (hyz : y ≠ z)
    (hA : end_points (σ a) = (x, y))
    (hB : end_points (σ b) = (y, z) ∨ end_points (σ b) = (z, y)) :
    alignStep σ (a, b) = some (Function.update σ b (orient (σ b) y)) := by
  rcases hB with hB | hB
  · have hd : edge_direction (end_points (σ a)) (end_points (σ b)) =
        some (1, 1) := by
      rw [hA, hB, edge_direction]
      dsimp only
      rw [if_neg hxy, if_neg hxz, if_pos rfl]
    rw [alignStep_some_eq _ _ _ _ hd]
    dsimp only
    rw [applyDir_one, Function.update_eq_self, applyDir_one]
    have hh : (σ b).headI = y := end_points_fst hB
    rw [orient, if_pos hh]
  · have hd : edge_direction (end_points (σ a)) (end_points (σ b)) =
        some (1, -1) := by
      rw [hA, hB, edge_direction]
      dsimp only
      rw [if_neg hxz, if_neg hxy, if_neg hyz, if_pos rfl]
    rw [alignStep_some_eq _ _ _ _ hd]
    dsimp only
    rw [applyDir_one, Function.update_eq_self, applyDir_neg_one]
    have hh : (σ b).headI = z := end_points_fst hB
    rw [orient, if_neg (by rw [hh]; exact fun he => hyz he.symm)]

/-- A step reversing the first entity and keeping the second (shared
head vertices). -/
theorem alignStep_rev_keep (σ : ℕ → List ℕ) (a b : ℕ) (hab : a ≠ b)
    (u v z : ℕ) (hA : end_points (σ a) = (u, v))
    (hB : end_points (σ b) = (u, z)) :
    alignStep σ (a, b) = some (Function.update σ a (σ a).reverse) := by
  have hd : edge_direction (end_points (σ a)) (end_points (σ b)) =
      some (-1, 1) := by
    rw [hA, hB, edge_direction]
    dsimp only
    rw [if_pos rfl]
  rw [alignStep_some_eq _ _ _ _ hd]
  dsimp only
  rw [applyDir_neg_one, applyDir_one,
    Function.update_noteq (Ne.symm hab)]
  have hself : σ b = Function.update σ a (σ a).reverse b :=
    (Function.update_noteq (Ne.symm hab) _ _).symm
  rw [hself, Function.update_eq_self]

/-- A step reversing both entities (head of the first equals tail of the
second). -/
theorem alignStep_rev_rev (σ : ℕ → List ℕ) (a b : ℕ) (hab : a ≠ b)
    (u v z : ℕ) (huz : u ≠ z) (hA : end_points (σ a) = (u, v))
    (hB : end_points (σ b) = (z, u)) :
    alignStep σ (a, b) =
      some (Function.update (Function.update σ a (σ a).reverse) b
        (σ b).reverse) := by
  have hd : edge_direction (end_points (σ a)) (end_points (σ b)) =
      some (-1, -1) := by
    rw [hA, hB, edge_direction]
    dsimp only
    rw [if_neg huz, if_pos rfl]
  rw [alignStep_some_eq _ _ _ _ hd]
  dsimp only
  rw [applyDir_neg_one, applyDir_neg_one,
    Function.update_noteq (Ne.symm hab)]

/-- The first pair of the loop orients both of the first two entities
of a well-formed cycle of length ≥ 3. -/
theorem align_base {ents : ℕ → List ℕ} {path : List ℕ} {w : ℕ → ℕ}
    (hk : 3 ≤ path.length) (hnd : path.Nodup)
    (hinj : ∀ a, a < path.length → ∀ b, b < path.length → w a = w b → a = b)
    (hend : ∀ m, m < path.length →
      end_points (ents (path.getD m 0)) = (w m, w (m + 1)) ∨
      end_points (ents (path.getD m 0)) = (w (m + 1), w m)) :
    alignStep ents (path.getD 0 0, path.getD (1 % path.length) 0) =
      some (alignedUpTo ents path w 1) := by
  rw [Nat.mod_eq_of_lt (by omega)]
  have hne : path.getD 0 0 ≠ path.getD 1 0 :=
    nodup_getD_ne hnd (by omega) (by omega) (by omega)
  have h01 : w 0 ≠ w 1 := fun h => by
    have := hinj 0 (by omega) 1 (by omega) h
    omega
  have h02 : w 0 ≠ w 2 := fun h => by
    have := hinj 0 (by omega) 2 (by omega) h
    omega
  have h12 : w 1 ≠ w 2 := fun h => by
    have := hinj 1 (by omega) 2 (by omega) h
    omega
  rcases hend 0 (by omega) with h0 | h0
  · rw [alignStep_keep ents (path.getD 0 0) (path.getD 1 0) (w 0) (w 1) (w 2)
      h01 h02 h12 h0 (hend 1 (by omega))]
    rw [alignedUpTo_succ, alignedUpTo_zero]
    rw [show orient (ents (path.getD 0 0)) (w 0) = ents (path.getD 0 0) from
      by rw [orient, if_pos (end_points_fst h0)]]
    rw [Function.update_eq_self]
  · rcases hend 1 (by omega) with h1 | h1
    · rw [alignStep_rev_keep ents (path.getD 0 0) (path.getD 1 0) hne
        (w 1) (w 0) (w 2) h0 h1]
      rw [alignedUpTo_succ, alignedUpTo_zero]
      rw [show orient (ents (path.getD 0 0)) (w 0) =
        (ents (path.getD 0 0)).reverse from by
        rw [orient, if_neg (by
          rw [end_points_fst h0]
          exact fun he => h01 he.symm)]]
      rw [show orient (ents (path.getD 1 0)) (w 1) = ents (path.getD 1 0) from
        by rw [orient, if_pos (end_points_fst h1)]]
      have hv : ents (path.getD 1 0) =
          Function.update ents (path.getD 0 0)
            (ents (path.getD 0 0)).reverse (path.getD 1 0) :=
        (Function.update_noteq (Ne.symm hne) _ _).symm
      rw [hv, Function.update_eq_self]
    · rw [alignStep_rev_rev ents (path.getD 0 0) (path.getD 1 0) hne
        (w 1) (w 0) (w 2) h12 h0 h1]
      rw [alignedUpTo_succ, alignedUpTo_zero]
      rw [show orient (ents (path.getD 0 0)) (w 0) =
        (ents (path.getD 0 0)).reverse from by
        rw [orient, if_neg (by
          rw [end_points_fst h0]
          exact fun he => h01 he.symm)]]
      rw [show orient (ents (path.getD 1 0)) (w 1) =
        (ents (path.getD 1 0)).reverse from by
        rw [orient, if_neg (by
          rw [end_points_fst h1]
          exact fun he => h12 he.symm)]]

/-- Each later pair of the loop leaves the already-oriented entity
alone and orients the next one. -/
theorem align_step {ents : ℕ → List ℕ} {path : List ℕ} {w : ℕ → ℕ}
    (hnd : path.Nodup)
    (hinj : ∀ a, a < path.length → ∀ b, b < path.length → w a = w b → a = b)
    (hwrap : w path.length = w 0)
    (hend : ∀ m, m < path.length →
      end_points (ents (path.getD m 0)) = (w m, w (m + 1)) ∨
      end_points (ents (path.getD m 0)) = (w (m + 1), w m))
    (j : ℕ) (hj : j + 3 ≤ path.length) :
    alignStep (alignedUpTo ents path w (j + 1))
      (path.getD (j + 1) 0, path.getD ((j + 1 + 1) % path.length) 0) =
      some (alignedUpTo ents path w (j + 2)) := by
  rw [Nat.mod_eq_of_lt (by omega)]
  have hσa : alignedUpTo ents path w (j + 1) (path.getD (j + 1) 0) =
      orient (ents (path.getD (j + 1) 0)) (w (j + 1)) :=
    alignedUpTo_at hnd (j + 1) (by omega) (j + 1) le_rfl
  have hσb : alignedUpTo ents path w (j + 1) (path.getD (j + 1 + 1) 0) =
      ents (path.getD (j + 1 + 1) 0) :=
    alignedUpTo_out (j + 1) _
      (fun m hm => nodup_getD_ne hnd (by omega) (by omega) (by omega))
  have hxy : w (j + 1) ≠ w (j + 2) := fun h => by
    have := hinj (j + 1) (by omega) (j + 2) (by omega) h
    omega
  have hxz : w (j + 1) ≠ w (j + 3) := by
    intro h
    rcases Nat.lt_or_ge (j + 3) path.length with hlt | hge
    · have := hinj (j + 1) (by omega) (j + 3) hlt h
      omega
    · have hk3 : j + 3 = path.length := by omega
      rw [hk3, hwrap] at h
      have := hinj (j + 1) (by omega) 0 (by omega) h
      omega
  have hyz : w (j + 2) ≠ w (j + 3) := by
    intro h
    rcases Nat.lt_or_ge (j + 3) path.length with hlt | hge
    · have := hinj (j + 2) (by omega) (j + 3) hlt h
      omega
    · have hk3 : j + 3 = path.length := by omega
      rw [hk3, hwrap] at h
      have := hinj (j + 2) (by omega) 0 (by omega) h
      omega
  have hEa : end_points (alignedUpTo ents path w (j + 1)
      (path.getD (j + 1) 0)) = (w (j + 1), w (j + 2)) := by
    rw [hσa]
    exact orient_end_points hxy (hend (j + 1) (by omega))
  have hEb : end_points (alignedUpTo ents path w (j + 1)
        (path.getD (j + 1 + 1) 0)) = (w (j + 2), w (j + 3)) ∨
      end_points (alignedUpTo ents path w (j + 1)
        (path.getD (j + 1 + 1) 0)) = (w (j + 3), w (j + 2)) := by
    rw [hσb]
    exact hend (j + 2) (by omega)
  rw [alignStep_keep (alignedUpTo ents path w (j + 1)) (path.getD (j + 1) 0)
    (path.getD (j + 1 + 1) 0) (w (j + 1)) (w (j + 2)) (w (j + 3))
    hxy hxz hyz hEa hEb]
  rw [hσb]
  show _ = some (alignedUpTo ents path w (j + 1 + 1))
  rw [alignedUpTo_succ ents path w (j + 1)]

/-- Folding the first `j + 1` pairs orients the first `j + 2` entities. -/
theorem align_prefix {ents : ℕ → List ℕ} {path : List ℕ} {w : ℕ → ℕ}
    (hk : 3 ≤ path.length) (hnd : path.Nodup)
    (hinj : ∀ a, a < path.length → ∀ b, b < path.length → w a = w b → a = b)
    (hwrap : w path.length = w 0)
    (hend : ∀ m, m < path.length →
      end_points (ents (path.getD m 0)) = (w m, w (m + 1)) ∨
      end_points (ents (path.getD m 0)) = (w (m + 1), w m)) :
    ∀ j, j + 2 ≤ path.length →
    List.foldlM alignStep ents ((List.range (j + 1)).map
      (fun m => (path.getD m 0, path.getD ((m + 1) % path.length) 0))) =
      some (alignedUpTo ents path w (j + 1)) := by
  intro j
  induction j with
  | zero =>
    intro hj
    rw [show List.range 1 = [0] from rfl]
    simp only [List.map_cons, List.map_nil, List.foldlM_cons, List.foldlM_nil]
    simp only [Nat.zero_add]
    rw [align_base hk hnd hinj hend]
    rfl
  | succ j ih =>
    intro hj
    rw [List.range_succ]
    simp only [List.map_append, List.map_cons, List.map_nil]
    rw [List.foldlM_append]
    rw [ih (by omega)]
    have hstep := align_step hnd hinj hwrap hend j (by omega)
    show (List.foldlM alignStep (alignedUpTo ents path w (j + 1))
      [(path.getD (j + 1) 0, path.getD ((j + 1 + 1) % path.length) 0)]) = _
    simp only [List.foldlM_cons, List.foldlM_nil]
    rw [hstep]
    rfl

/-- The whole reorientation pass on a well-formed cycle of length ≥ 3:
the final wrap-around pair is a no-op and the result is the fully
oriented state. -/
theorem align_full {ents : ℕ → List ℕ} {path : List ℕ} {w : ℕ → ℕ}
    (hk : 3 ≤ path.length) (hnd : path.Nodup)
    (hinj : ∀ a, a < path.length → ∀ b, b < path.length → w a = w b → a = b)
    (hwrap : w path.length = w 0)
    (hend : ∀ m, m < path.length →
      end_points (ents (path.getD m 0)) = (w m, w (m + 1)) ∨
      end_points (ents (path.getD m 0)) = (w (m + 1), w m)) :
    alignPass ents path =
      some (alignedUpTo ents path w (path.length - 1)) := by
  have hfin : alignStep (alignedUpTo ents path w (path.length - 1))
      (path.getD (path.length - 1) 0,
        path.getD ((path.length - 1 + 1) % path.length) 0) =
      some (alignedUpTo ents path w (path.length - 1)) := by
    have hk1 : path.length - 1 + 1 = path.length := by omega
    rw [hk1, Nat.mod_self]
    have hσa : alignedUpTo ents path w (path.length - 1)
        (path.getD (path.length - 1) 0) =
        orient (ents (path.getD (path.length - 1) 0))
          (w (path.length - 1)) :=
      alignedUpTo_at hnd _ (by omega) _ le_rfl
    have hσb : alignedUpTo ents path w (path.length - 1) (path.getD 0 0) =
        orient (ents (path.getD 0 0)) (w 0) :=
      alignedUpTo_at hnd _ (by omega) 0 (by omega)
    have hxy : w (path.length - 1) ≠ w 0 := fun h => by
      have := hinj (path.length - 1) (by omega) 0 (by omega) h
      omega
    have hxz : w (path.length - 1) ≠ w 1 := fun h => by
      have := hinj (path.length - 1) (by omega) 1 (by omega) h
      omega
    have hyz : w 0 ≠ w 1 := fun h => by
      have := hinj 0 (by omega) 1 (by omega) h
      omega
    have hE := hend (path.length - 1) (by omega)
    rw [hk1, hwrap] at hE
    have hEa : end_points (alignedUpTo ents path w (path.length - 1)
        (path.getD (path.length - 1) 0)) = (w (path.length - 1), w 0) := by
      rw [hσa]
      exact orient_end_points hxy hE
    have hEb0 : end_points (alignedUpTo ents path w (path.length - 1)
        (path.getD 0 0)) = (w 0, w 1) := by
      rw [hσb]
      exact orient_end_points hyz (hend 0 (by omega))
    rw [alignStep_keep _ _ _ (w (path.length - 1)) (w 0) (w 1)
      hxy hxz hyz hEa (Or.inl hEb0)]
    have hor : orient (alignedUpTo ents path w (path.length - 1)
        (path.getD 0 0)) (w 0) =
        alignedUpTo ents path w (path.length - 1) (path.getD 0 0) := by
      rw [orient, if_pos (end_points_fst hEb0)]
    rw [hor, Function.update_eq_self]
  rw [alignPass, roundTripPairs_eq]
  have hsplit : List.range path.length =
      List.range (path.length - 1) ++ [path.length - 1] := by
    rw [← List.range_succ]
    congr 1
    omega
  rw [hsplit]
  simp only [List.map_append, List.map_cons, List.map_nil]
  rw [List.foldlM_append]
  have hpre := align_prefix hk hnd hinj hwrap hend (path.length - 2) (by omega)
  have heq2 : path.length - 2 + 1 = path.length - 1 := by omega
  rw [heq2] at hpre
  rw [hpre]
  show (List.foldlM alignStep (alignedUpTo ents path w (path.length - 1))
    [(path.getD (path.length - 1) 0,
      path.getD ((path.length - 1 + 1) % path.length) 0)]) = _
  simp only [List.foldlM_cons, List.foldlM_nil]
  rw [hfin]
  rfl

/-- In the fully oriented state every cyclically consecutive pair is
linked tail-to-head. -/
theorem aligned_links {ents : ℕ → List ℕ} {path : List ℕ} {w : ℕ → ℕ}
    (hk : 3 ≤ path.length) (hnd : path.Nodup)
    (hinj : ∀ a, a < path.length → ∀ b, b < path.length → w a = w b → a = b)
    (hwrap : w path.length = w 0)
    (hend : ∀ m, m < path.length →
      end_points (ents (path.getD m 0)) = (w m, w (m + 1)) ∨
      end_points (ents (path.getD m 0)) = (w (m + 1), w m)) :
    ∀ m, m < path.length →
    (alignedUpTo ents path w (path.length - 1) (path.getD m 0)).getLastD 0 =
      (alignedUpTo ents path w (path.length - 1)
        (path.getD ((m + 1) % path.length) 0)).headI := by
  intro m hm
  have hwm : w m ≠ w (m + 1) := by
    intro h
    rcases Nat.lt_or_ge (m + 1) path.length with hlt | hge
    · have := hinj m hm (m + 1) hlt h
      omega
    · have hm1 : m + 1 = path.length := by omega
      rw [hm1, hwrap] at h
      have := hinj m hm 0 (by omega) h
      omega
  have hL : (alignedUpTo ents path w (path.length - 1)
      (path.getD m 0)).getLastD 0 = w (m + 1) := by
    rw [alignedUpTo_at hnd _ (by omega) m (by omega)]
    exact end_points_snd (orient_end_points hwm (hend m hm))
  rw [hL]
  rcases Nat.lt_or_ge (m + 1) path.length with hlt | hge
  · rw [Nat.mod_eq_of_lt hlt]
    have hw1 : w (m + 1) ≠ w (m + 2) := by
      intro h
      rcases Nat.lt_or_ge (m + 2) path.length with hlt2 | hge2
      · have := hinj (m + 1) hlt (m + 2) hlt2 h
        omega
      · have hm2 : m + 2 = path.length := by omega
        rw [hm2, hwrap] at h
        have := hinj (m + 1) hlt 0 (by omega) h
        omega
    rw [alignedUpTo_at hnd _ (by omega) (m + 1) (by omega)]
    exact (end_points_fst (orient_end_points hw1 (hend (m + 1) hlt))).symm
  · have hm1 : m + 1 = path.length := by omega
    rw [hm1, Nat.mod_self]
    rw [alignedUpTo_at hnd _ (by omega) 0 (by omega)]
    have hw01 : w 0 ≠ w 1 := fun h => by
      have := hinj 0 (by omega) 1 (by omega) h
      omega
    rw [end_points_fst (orient_end_points hw01 (hend 0 (by omega)))]
    exact hwrap

/-- The reorientation pass on a two-entity cycle (two entities spanning
the same junction pair `{w0, w1}`): it succeeds and leaves the two
entities linked tail-to-head in both cyclic directions. -/
theorem alignPass_two (ents : ℕ → List ℕ) (p0 p1 : ℕ) (hne : p0 ≠ p1)
    (w0 w1 : ℕ) (hw : w0 ≠ w1)
    (h0 : end_points (ents p0) = (w0, w1) ∨ end_points (ents p0) = (w1, w0))
    (h1 : end_points (ents p1) = (w1, w0) ∨
      end_points (ents p1) = (w0, w1)) :
    ∃ σ, alignPass ents [p0, p1] = some σ ∧
      (σ p0).getLastD 0 = (σ p1).headI ∧
      (σ p1).getLastD 0 = (σ p0).headI := by
  have hfold : ∀ σ1 σ2 : ℕ → List ℕ, alignStep ents (p0, p1) = some σ1 →
      alignStep σ1 (p1, p0) = some σ2 →
      alignPass ents [p0, p1] = some σ2 := by
    intro σ1 σ2 h1s h2s
    have hres : (alignStep σ1 (p1, p0) >>=
        fun y => (pure y : Option (ℕ → List ℕ))) = some σ2 := by
      rw [h2s]
      rfl
    rw [alignPass, show roundTripPairs [p0, p1] = [(p0, p1), (p1, p0)]
      from rfl]
    simp only [List.foldlM_cons, List.foldlM_nil]
    rw [h1s]
    exact hres
  have hrev : ∀ (i : ℕ) (u v : ℕ), end_points (ents i) = (u, v) →
      end_points (ents i).reverse = (v, u) := by
    intro i u v h
    rw [end_points_reverse, h]
    rfl
  rcases h0 with h0 | h0
  · rcases h1 with h1 | h1
    · -- e0 = (w0, w1), e1 = (w1, w0): both reversed twice, state restored
      have hs1 := alignStep_rev_rev ents p0 p1 hne w0 w1 w1 hw h0 h1
      set σ1 := Function.update (Function.update ents p0 (ents p0).reverse)
        p1 (ents p1).reverse with hσ1def
      have hσ1p1 : σ1 p1 = (ents p1).reverse := Function.update_same _ _ _
      have hσ1p0 : σ1 p0 = (ents p0).reverse := by
        rw [hσ1def, Function.update_noteq hne, Function.update_same]
      have hE1 : end_points (σ1 p1) = (w0, w1) := by
        rw [hσ1p1]
        exact hrev _ _ _ h1
      have hE0 : end_points (σ1 p0) = (w1, w0) := by
        rw [hσ1p0]
        exact hrev _ _ _ h0
      have hs2 := alignStep_rev_rev σ1 p1 p0 (Ne.symm hne) w0 w1 w1 hw hE1 hE0
      refine ⟨_, hfold _ _ hs1 hs2, ?_, ?_⟩
      · rw [Function.update_same, hσ1p0, List.reverse_reverse,
          Function.update_noteq (Ne.symm hne), Function.update_same,
          hσ1p1, List.reverse_reverse]
        rw [end_points_snd h0, end_points_fst h1]
      · rw [Function.update_same, hσ1p0, List.reverse_reverse,
          Function.update_noteq (Ne.symm hne), Function.update_same,
          hσ1p1, List.reverse_reverse]
        rw [end_points_snd h1, end_points_fst h0]
    · -- e0 = (w0, w1), e1 = (w0, w1): first reversed, then both reversed
      have hs1 := alignStep_rev_keep ents p0 p1 hne w0 w1 w1 h0 h1
      set σ1 := Function.update ents p0 (ents p0).reverse with hσ1def
      have hσ1p1 : σ1 p1 = ents p1 := Function.update_noteq (Ne.symm hne) _ _
      have hσ1p0 : σ1 p0 = (ents p0).reverse := Function.update_same _ _ _
      have hE1 : end_points (σ1 p1) = (w0, w1) := by
        rw [hσ1p1]
        exact h1
      have hE0 : end_points (σ1 p0) = (w1, w0) := by
        rw [hσ1p0]
        exact hrev _ _ _ h0
      have hs2 := alignStep_rev_rev σ1 p1 p0 (Ne.symm hne) w0 w1 w1 hw hE1 hE0
      refine ⟨_, hfold _ _ hs1 hs2, ?_, ?_⟩
      · rw [Function.update_same, hσ1p0, List.reverse_reverse,
          Function.update_noteq (Ne.symm hne), Function.update_same, hσ1p1]
        rw [end_points_snd h0,
          end_points_fst (hrev _ _ _ h1)]
      · rw [Function.update_same, hσ1p0, List.reverse_reverse,
          Function.update_noteq (Ne.symm hne), Function.update_same, hσ1p1]
        rw [end_points_snd (hrev _ _ _ h1), end_points_fst h0]
  · rcases h1 with h1 | h1
    · -- e0 = (w1, w0), e1 = (w1, w0)
      have hs1 := alignStep_rev_keep ents p0 p1 hne w1 w0 w0 h0 h1
      set σ1 := Function.update ents p0 (ents p0).reverse with hσ1def
      have hσ1p1 : σ1 p1 = ents p1 := Function.update_noteq (Ne.symm hne) _ _
      have hσ1p0 : σ1 p0 = (ents p0).reverse := Function.update_same _ _ _
      have hE1 : end_points (σ1 p1) = (w1, w0) := by
        rw [hσ1p1]
        exact h1
      have hE0 : end_points (σ1 p0) = (w0, w1) := by
        rw [hσ1p0]
        exact hrev _ _ _ h0
      have hs2 := alignStep_rev_rev σ1 p1 p0 (Ne.symm hne) w1 w0 w0
        (Ne.symm hw) hE1 hE0
      refine ⟨_, hfold _ _ hs1 hs2, ?_, ?_⟩
      · rw [Function.update_same, hσ1p0, List.reverse_reverse,
          Function.update_noteq (Ne.symm hne), Function.update_same, hσ1p1]
        rw [end_points_snd h0,
          end_points_fst (hrev _ _ _ h1)]
      · rw [Function.update_same, hσ1p0, List.reverse_reverse,
          Function.update_noteq (Ne.symm hne), Function.update_same, hσ1p1]
        rw [end_points_snd (hrev _ _ _ h1), end_points_fst h0]
    · -- e0 = (w1, w0), e1 = (w0, w1)
      have hs1 := alignStep_rev_rev ents p0 p1 hne w1 w0 w0 (Ne.symm hw) h0 h1
      set σ1 := Function.update (Function.update ents p0 (ents p0).reverse)
        p1 (ents p1).reverse with hσ1def
      have hσ1p1 : σ1 p1 = (ents p1).reverse := Function.update_same _ _ _
      have hσ1p0 : σ1 p0 = (ents p0).reverse := by
        rw [hσ1def, Function.update_noteq hne, Function.update_same]
      have hE1 : end_points (σ1 p1) = (w1, w0) := by
        rw [hσ1p1]
        exact hrev _ _ _ h1
      have hE0 : end_points (σ1 p0) = (w0, w1) := by
        rw [hσ1p0]
        exact hrev _ _ _ h0
      have hs2 := alignStep_rev_rev σ1 p1 p0 (Ne.symm hne) w1 w0 w0
        (Ne.symm hw) hE1 hE0
      refine ⟨_, hfold _ _ hs1 hs2, ?_, ?_⟩
      · rw [Function.update_same, hσ1p0, List.reverse_reverse,
          Function.update_noteq (Ne.symm hne), Function.update_same,
          hσ1p1, List.reverse_reverse]
        rw [end_points_snd h0, end_points_fst h1]
      · rw [Function.update_same, hσ1p0, List.reverse_reverse,
          Function.update_noteq (Ne.symm hne), Function.update_same,
          hσ1p1, List.reverse_reverse]
        rw [end_points_snd h1, end_points_fst h0]

/-- A successful reorientation pass on a well-formed cycle links every
cyclically consecutive entity pair tail-to-head. -/
theorem alignPass_links {ents : ℕ → List ℕ} {path : List ℕ} {w : ℕ → ℕ}
    {σ : ℕ → List ℕ} (hw : IsJunctionCycle ents path w)
    (h : alignPass ents path = some σ) :
    ∀ m, m < path.length →
      (σ (path.getD m 0)).getLastD 0 =
        (σ (path.getD ((m + 1) % path.length) 0)).headI := by
  obtain ⟨hk2, hnd, hwrap, hinj, hend⟩ := hw
  rcases Nat.lt_or_ge path.length 3 with hk | hk3
  · have hk2e : path.length = 2 := by omega
    obtain ⟨p0, p1, rfl⟩ := List.length_eq_two.mp hk2e
    have hne : p0 ≠ p1 := by
      rcases List.nodup_cons.mp hnd with ⟨hmem, _⟩
      exact fun he => hmem (he ▸ List.mem_cons_self _ _)
    have hw01 : w 0 ≠ w 1 := fun hq => by
      have := hinj 0 (by omega) 1 (by omega) hq
      omega
    have h0 := hend 0 (by omega)
    have h1 := hend 1 (by omega)
    have hw2 : w 2 = w 0 := hwrap
    norm_num at h0 h1
    rw [hw2] at h1
    obtain ⟨σ2, hp, l01, l10⟩ :=
      alignPass_two ents p0 p1 hne (w 0) (w 1) hw01 h0 h1
    rw [h] at hp
    simp only [Option.some.injEq] at hp
    subst hp
    intro m hm
    have hm2 : m < 2 := by simpa using hm
    interval_cases m
    · simpa using l01
    · simpa using l10
  · rw [align_full hk3 hnd hinj hwrap hend] at h
    simp only [Option.some.injEq] at h
    subst h
    exact aligned_links hk3 hnd hinj hwrap hend

/-- Inversion of the resolver: a successful resolution came from a
successful reorientation pass on the returned entity path. -/
theorem v2ep_alignPass {P : Type} {graph : ℕ → ℕ → Option ℕ}
    {ents : ℕ → List ℕ} {vp : List ℕ} {vertices : Option (ℕ → P)}
    {is_ccw : List P → Bool} {p : List ℕ} {ents2 : ℕ → List ℕ}
    (h : vertex_to_entity_path graph ents vp vertices is_ccw =
      some (p, ents2)) :
    alignPass ents p = some ents2 := by
  cases vertices with
  | none =>
    rw [vertex_to_entity_path] at h
    cases hc : collectEntities graph vp with
    | none =>
      simp only [hc] at h
      cases h
    | some c =>
      simp only [hc] at h
      cases ha : alignPass ents (applyDir 1 (unique_ordered c)) with
      | none =>
        simp only [ha] at h
        cases h
      | some e =>
        simp only [ha, Option.some.injEq, Prod.mk.injEq] at h
        obtain ⟨hp, hents⟩ := h
        subst hp
        subst hents
        exact ha
  | some V =>
    rw [vertex_to_entity_path] at h
    cases hc : collectEntities graph vp with
    | none =>
      simp only [hc] at h
      cases h
    | some c =>
      simp only [hc] at h
      cases ha : alignPass ents (applyDir
          ((if is_ccw ((vp ++ [vp.headI]).map V) then 1 else 0) * 2 - 1)
          (unique_ordered c)) with
      | none =>
        simp only [ha] at h
        cases h
      | some e =>
        simp only [ha, Option.some.injEq, Prod.mk.injEq] at h
        obtain ⟨hp, hents⟩ := h
        subst hp
        subst hents
        exact ha

/-- C3.  For every entity path returned by the cycle resolver on a
well-formed simple cycle (distinct junction vertices, each entity
spanning consecutive junctions), every pair of cyclically consecutive
entities `(a, b)` of the returned path shares an endpoint after
resolution: the last element of `points(a)` equals the first element of
`points(b)`. -/
theorem resolver_adjacency {P : Type} (graph : ℕ → ℕ → Option ℕ)
    (ents : ℕ → List ℕ) (vp : List ℕ) (vertices : Option (ℕ → P))
    (is_ccw : List P → Bool) (p : List ℕ) (ents2 : ℕ → List ℕ)
    (h : vertex_to_entity_path graph ents vp vertices is_ccw =
      some (p, ents2))
    (w : ℕ → ℕ) (hw : IsJunctionCycle ents p w) :
    ∀ m, m < p.length →
      (ents2 (p.getD m 0)).getLastD 0 =
        (ents2 (p.getD ((m + 1) % p.length) 0)).headI :=
  alignPass_links hw (v2ep_alignPass h)

/-- Witness for C3 on the square: after resolution every consecutive
entity pair of the returned path `[0, 1, 2, 3]` is linked
tail-to-head. -/
theorem resolver_adjacency_witness :
    ∃ e2 : ℕ → List ℕ,
      vertex_to_entity_path sqGraph sqEnts [0, 1, 2, 3]
        (none : Option (ℕ → Bool)) (fun l => l.headI) =
        some ([0, 1, 2, 3], e2) ∧
      IsJunctionCycle sqEnts [0, 1, 2, 3] (fun m => m % 4) ∧
      ∀ m, m < 4 →
        (e2 (([0, 1, 2, 3] : List ℕ).getD m 0)).getLastD 0 =
          (e2 (([0, 1, 2, 3] : List ℕ).getD ((m + 1) % 4) 0)).headI := by
  obtain ⟨e2, h⟩ : ∃ e2, vertex_to_entity_path sqGraph sqEnts [0, 1, 2, 3]
      (none : Option (ℕ → Bool)) (fun l => l.headI) =
      some ([0, 1, 2, 3], e2) := ⟨_, rfl⟩
  have hjc : IsJunctionCycle sqEnts [0, 1, 2, 3] (fun m => m % 4) :=
    ⟨by decide, by decide, by decide, by decide, by decide⟩
  refine ⟨e2, h, hjc, ?_⟩
  intro m hm
  have hlink := resolver_adjacency sqGraph sqEnts [0, 1, 2, 3] none
    (fun l => l.headI) [0, 1, 2, 3] e2 h (fun m => m % 4) hjc m
    (by simpa using hm)
  simpa using hlink

end Traversal
